import Mathlib

/-!
Verification of the NEO normalization and aggregation pipeline of the
cosmic_event repository, as a shallow embedding in Lean 4.

Embedded source functions (with their source locations):
* `normalizeApproach`, `normalizeNeo`, `normalizeNeoData` from `src/lib/nasa.ts`
  (`src/unnamed/part_001`);
* the `loadMore` merge of `useNeoFeed` in its two revisions:
  `src/unnamed/part_003` (all four sort policies) and `src/hooks/useNeoFeed.ts`
  (legacy, approach policies only);
* the parameter validation of the `/api/neos` route handler `GET`
  (`src/unnamed/part_006`, first revision).

JavaScript semantics are modeled explicitly:
* `JsOpt` is the tri-state value of an optional nullable field
  (absent / null / present), so that `undefined` and `null` stay distinct;
* numeric truthiness (`0` and `""` are falsy) is modeled by the
  `jsTruthy...` helpers;
* `Array.prototype.sort(cmp)` is modeled by `jsSort`, a stable insertion
  sort driven by the sign of the comparator. For the comparators appearing
  in this code the only comparator-inconsistent pairs are two elements that
  are both "missing" (both calls return 1); engines keep such pairs in
  original order, which `jsSort` reproduces by treating mutual-positive
  comparisons as ties;
* `String.prototype.localeCompare` on the fixed-width ASCII date strings is
  codepoint-lexicographic, modeled by `strLe`;
* JavaScript numbers are modeled as `ℚ` (for values produced by
  `parseFloat`, with an explicit `NaN` constructor) and `Int` (for epoch
  timestamps); `NaN` inputs inside raw payloads are outside the model.
-/

namespace CosmicEvent

/-- Tri-state JavaScript value of an optional, nullable field: the field can
be absent (`undef`), present with value `null`, or present with a value. -/
inductive JsOpt (α : Type) : Type
  | undef : JsOpt α
  | null : JsOpt α
  | val : α → JsOpt α
deriving DecidableEq, Repr

/-- Result of `parseFloat`: either `NaN` or a numeric value. -/
inductive JsNumber : Type
  | nan : JsNumber
  | num : ℚ → JsNumber
deriving DecidableEq, Repr

/-- JS string truthiness: a present, non-null, non-empty string. Models the
conditions `s ? ... : ...` and the fallbacks `a || b` on string fields. -/
def jsTruthyStr : JsOpt String → Option String
  | JsOpt.val s => if s = "" then none else some s
  | _ => none

/-- JS number truthiness: a present, non-null, non-zero number. Models the
condition `minDiameter && maxDiameter` on numeric fields. -/
def jsTruthyNum : JsOpt ℚ → Option ℚ
  | JsOpt.val q => if q = 0 then none else some q
  | _ => none

/-- One decimal digit, or `none`. -/
def digitVal (c : Char) : Option Nat :=
  if c.isDigit then some (c.toNat - '0'.toNat) else none

/-- Digits consumed into a natural number accumulator, returning the value
and the rest. Helper for `jsParseFloat`. -/
def takeDigits : List Char → Nat → Nat → Nat × Nat × List Char
  | [], acc, n => (acc, n, [])
  | c :: cs, acc, n =>
    match digitVal c with
    | some d => takeDigits cs (acc * 10 + d) (n + 1)
    | none => (acc, n, c :: cs)

/-- Modeled from the ECMAScript built-in `parseFloat`, restricted to the
shapes relevant here: optional sign, decimal digits, optional fractional
part. A string whose longest numeric prefix is empty parses to `NaN`. -/
def jsParseFloat (s : String) : JsNumber :=
  let cs := s.data
  let signAndRest : ℚ × List Char :=
    match cs with
    | '-' :: rest => (-1, rest)
    | '+' :: rest => (1, rest)
    | _ => (1, cs)
  let sign := signAndRest.1
  let rest := signAndRest.2
  let intPart := takeDigits rest 0 0
  let afterInt := intPart.2.2
  let fracPart : ℚ × Nat :=
    match afterInt with
    | '.' :: fs =>
      let f := takeDigits fs 0 0
      ((f.1 : ℚ) / (10 : ℚ) ^ f.2.1, f.2.1)
    | _ => (0, 0)
  if intPart.2.1 = 0 ∧ fracPart.2 = 0 then JsNumber.nan
  else JsNumber.num (sign * ((intPart.1 : ℚ) + fracPart.1))

/-! ### Raw (upstream) record shapes, following `NasaApproachSchema` and
`NasaNeoSchema` in `src/lib/nasa.ts`. Fields that the normalizers never
read (`neo_reference_id`, `element_count`) are omitted. -/

/-- Raw `relative_velocity` object. -/
structure RawVelocity : Type where
  kilometers_per_second : JsOpt String
deriving DecidableEq, Repr

/-- Raw `miss_distance` object. -/
structure RawMissDistance : Type where
  kilometers : JsOpt String
deriving DecidableEq, Repr

/-- Raw close-approach record. -/
structure RawApproach : Type where
  close_approach_date : JsOpt String
  close_approach_date_full : JsOpt String
  epoch_date_close_approach : JsOpt Int
  relative_velocity : JsOpt RawVelocity
  miss_distance : JsOpt RawMissDistance
  orbiting_body : JsOpt String
deriving DecidableEq, Repr

/-- Raw `estimated_diameter.kilometers` object. -/
structure RawDiameterKm : Type where
  estimated_diameter_min : JsOpt ℚ
  estimated_diameter_max : JsOpt ℚ
deriving DecidableEq, Repr

/-- Raw `estimated_diameter` object. -/
structure RawDiameter : Type where
  kilometers : JsOpt RawDiameterKm
deriving DecidableEq, Repr

/-- Raw NEO record. -/
structure RawNeo : Type where
  id : String
  name : String
  is_potentially_hazardous_asteroid : Bool
  estimated_diameter : JsOpt RawDiameter
  close_approach_data : JsOpt (List RawApproach)
  nasa_jpl_url : JsOpt String
deriving DecidableEq, Repr

/-- The optional chain `approach.relative_velocity?.kilometers_per_second`. -/
def velocityChain (a : RawApproach) : JsOpt String :=
  match a.relative_velocity with
  | JsOpt.val v => v.kilometers_per_second
  | _ => JsOpt.undef

/-- The optional chain `approach.miss_distance?.kilometers`. -/
def missChain (a : RawApproach) : JsOpt String :=
  match a.miss_distance with
  | JsOpt.val m => m.kilometers
  | _ => JsOpt.undef

/-- The optional chain `neo.estimated_diameter?.kilometers?.estimated_diameter_min`. -/
def rawMinKm (n : RawNeo) : JsOpt ℚ :=
  match n.estimated_diameter with
  | JsOpt.val d =>
    match d.kilometers with
    | JsOpt.val km => km.estimated_diameter_min
    | _ => JsOpt.undef
  | _ => JsOpt.undef

/-- The optional chain `neo.estimated_diameter?.kilometers?.estimated_diameter_max`. -/
def rawMaxKm (n : RawNeo) : JsOpt ℚ :=
  match n.estimated_diameter with
  | JsOpt.val d =>
    match d.kilometers with
    | JsOpt.val km => km.estimated_diameter_max
    | _ => JsOpt.undef
  | _ => JsOpt.undef

/-! ### Normalized entities (`src/types/neo.ts`). -/

/-- Normalized `Approach`. `epoch` keeps the tri-state of the raw field
because `normalizeApproach` passes it through unchanged. -/
structure Approach : Type where
  datetime : Option String
  epoch : JsOpt Int
  velocityKps : Option JsNumber
  missDistanceKm : Option JsNumber
  orbitingBody : Option String
deriving DecidableEq, Repr

/-- Normalized `NEO`. -/
structure NEO : Type where
  id : String
  name : String
  hazardous : Bool
  avgDiameterKm : Option ℚ
  nearestApproach : Option Approach
  approachesCount : Nat
  nasaUrl : String
deriving DecidableEq, Repr

/-- Normalized `DayGroup`. -/
structure DayGroup : Type where
  date : String
  count : Nat
  neos : List NEO
deriving DecidableEq, Repr

/-- The four values of `SortOrder` (`src/types/neo.ts`). -/
inductive SortOrder : Type
  | approach_asc | approach_desc | size_asc | size_desc
deriving DecidableEq, Repr

/-- Embeds `normalizeApproach` (`src/lib/nasa.ts` lines 224-236).
`datetime` is `close_approach_date_full || close_approach_date || null`;
`epoch` is the raw field passed through; the two float fields are
`chain ? parseFloat(chain) : null`; `orbiting_body || null`. -/
def normalizeApproach (a : RawApproach) : Approach where
  datetime :=
    match jsTruthyStr a.close_approach_date_full with
    | some s => some s
    | none => jsTruthyStr a.close_approach_date
  epoch := a.epoch_date_close_approach
  velocityKps := (jsTruthyStr (velocityChain a)).map jsParseFloat
  missDistanceKm := (jsTruthyStr (missChain a)).map jsParseFloat
  orbitingBody := jsTruthyStr a.orbiting_body

/-! ### The JavaScript stable sort. -/

/-- Boolean "keep `a` no later than `b`" induced by a JS comparator: `a`
stays before `b` when the comparator is nonpositive, and a mutually-positive
pair (the only inconsistent case arising from the comparators in this code,
two "missing"-keyed elements) is kept in original order, as engines do. -/
def jsLe {α : Type} {K : Type} [LinearOrderedRing K] (cmp : α → α → K) (a b : α) : Bool :=
  decide (cmp a b ≤ 0) || (decide (0 < cmp a b) && decide (0 < cmp b a))

/-- Model of `Array.prototype.sort(cmp)`: a stable sort driven by `jsLe`. -/
def jsSort {α : Type} {K : Type} [LinearOrderedRing K] (cmp : α → α → K) (l : List α) : List α :=
  l.insertionSort (fun a b => jsLe cmp a b = true)

/-- Codepoint-lexicographic order on character lists; models the default
`localeCompare` ordering on the ASCII `YYYY-MM-DD` date strings. -/
def lexLe : List Char → List Char → Bool
  | [], _ => true
  | _ :: _, [] => false
  | a :: as, b :: bs => if a < b then true else if b < a then false else lexLe as bs

/-- Model of `a.localeCompare(b) <= 0` on the date strings used here. -/
def strLe (a b : String) : Bool := lexLe a.data b.data

/-! ### Record normalizer (`normalizeNeo`). -/

/-- Maximum safe integer, `Number.MAX_SAFE_INTEGER`. -/
def maxSafeInteger : Int := 9007199254740991

/-- The sort key `a.epoch_date_close_approach || Number.MAX_SAFE_INTEGER`
used by `normalizeNeo` (`src/lib/nasa.ts` lines 199-203): an absent, null,
or zero (falsy) epoch is coerced to the sentinel. -/
def epochOrMax (a : RawApproach) : Int :=
  match a.epoch_date_close_approach with
  | JsOpt.val e => if e = 0 then maxSafeInteger else e
  | _ => maxSafeInteger

/-- Comparator `(a, b) => epochA - epochB` over the coerced epochs. -/
def cmpEpochAsc (a b : RawApproach) : Int := epochOrMax a - epochOrMax b

/-- The read `neo.close_approach_data || []`. -/
def rawApproachesOf (neo : RawNeo) : List RawApproach :=
  match neo.close_approach_data with
  | JsOpt.val l => l
  | _ => []

/-- Embeds `normalizeNeo` (`src/lib/nasa.ts` lines 185-217): average
diameter via numeric truthiness of the two bounds, nearest approach as the
head of the approaches sorted by coerced epoch, `nasa_jpl_url || ""`. -/
def normalizeNeo (neo : RawNeo) : NEO :=
  let avgDiameterKm : Option ℚ :=
    match jsTruthyNum (rawMinKm neo), jsTruthyNum (rawMaxKm neo) with
    | some mn, some mx => some ((mn + mx) / 2)
    | _, _ => none
  let approaches : List RawApproach := rawApproachesOf neo
  let nearestApproach : Option Approach :=
    if approaches.length > 0 then
      (jsSort cmpEpochAsc approaches).head?.map normalizeApproach
    else none
  { id := neo.id
    name := neo.name
    hazardous := neo.is_potentially_hazardous_asteroid
    avgDiameterKm := avgDiameterKm
    nearestApproach := nearestApproach
    approachesCount := approaches.length
    nasaUrl := (jsTruthyStr neo.nasa_jpl_url).getD "" }

/-! ### Sort policies over normalized NEOs. -/

/-- The falsy test `!x.nearestApproach?.epoch`: true when the NEO has no
nearest approach, or its epoch is absent, null, or zero. -/
def neoApproachMissing (n : NEO) : Bool :=
  match n.nearestApproach with
  | none => true
  | some ap =>
    match ap.epoch with
    | JsOpt.val e => e = 0
    | _ => true

/-- The epoch read `x.nearestApproach.epoch`, used by the comparators only
after `neoApproachMissing` ruled out the degenerate cases. -/
def neoEpochVal (n : NEO) : Int :=
  match n.nearestApproach with
  | some ap =>
    match ap.epoch with
    | JsOpt.val e => e
    | _ => 0
  | none => 0

/-- Generic shape of the four comparators in this code:
`if (miss a) return 1; if (miss b) return -1; return key a - key b`
(or `key b - key a` for the descending direction). -/
def jsKeyCmp {α : Type} {K : Type} [LinearOrderedRing K]
    (miss : α → Bool) (key : α → K) (desc : Bool) (a b : α) : K :=
  if miss a then 1
  else if miss b then -1
  else if desc then key b - key a else key a - key b

/-- Comparator of the `approach_asc` branch. -/
def cmpApproachAsc : NEO → NEO → Int := jsKeyCmp neoApproachMissing neoEpochVal false

/-- Comparator of the `approach_desc` branch. -/
def cmpApproachDesc : NEO → NEO → Int := jsKeyCmp neoApproachMissing neoEpochVal true

/-- The strict-null test `x.avgDiameterKm === null` of the size comparators. -/
def neoSizeMissing (n : NEO) : Bool := n.avgDiameterKm = none

/-- The diameter read `x.avgDiameterKm` of the size comparators. -/
def neoSizeVal (n : NEO) : ℚ := n.avgDiameterKm.getD 0

/-- Comparator of the `size_asc` branch (merge engine only). -/
def cmpSizeAsc : NEO → NEO → ℚ := jsKeyCmp neoSizeMissing neoSizeVal false

/-- Comparator of the `size_desc` branch (merge engine only). -/
def cmpSizeDesc : NEO → NEO → ℚ := jsKeyCmp neoSizeMissing neoSizeVal true

/-! ### Feed aggregator (`normalizeNeoData`). -/

/-- The in-group sort of `normalizeNeoData` (`src/lib/nasa.ts` lines
153-166): only the two approach policies sort; the size policies fall
through without sorting. -/
def sortInGroup (so : SortOrder) (neos : List NEO) : List NEO :=
  match so with
  | SortOrder.approach_asc => jsSort cmpApproachAsc neos
  | SortOrder.approach_desc => jsSort cmpApproachDesc neos
  | _ => neos

/-- Embeds `normalizeNeoData` (`src/lib/nasa.ts` lines 138-178). The
payload's `near_earth_objects` record is its entry list (date key, raw
records); each entry is filtered by the hazardous flag, normalized, sorted
per `sortInGroup`, and the groups are sorted by date. -/
def normalizeNeoData (entries : List (String × List RawNeo))
    (hazardousOnly : Bool) (so : SortOrder) : List DayGroup :=
  let dayGroups := entries.map (fun e =>
    let normalizedNeos := sortInGroup so
      ((e.2.filter (fun neo => !hazardousOnly || neo.is_potentially_hazardous_asteroid)).map
        normalizeNeo)
    { date := e.1, count := normalizedNeos.length, neos := normalizedNeos : DayGroup })
  dayGroups.insertionSort (fun a b => strLe a.date b.date = true)

/-! ### Incremental merge engine (`useNeoFeed.loadMore`). -/

/-- The re-sort applied to an extended date group in the current revision of
`loadMore` (`src/unnamed/part_003` lines 242-267): all four policies sort. -/
def resortGroup (so : SortOrder) (neos : List NEO) : List NEO :=
  match so with
  | SortOrder.approach_asc => jsSort cmpApproachAsc neos
  | SortOrder.approach_desc => jsSort cmpApproachDesc neos
  | SortOrder.size_asc => jsSort cmpSizeAsc neos
  | SortOrder.size_desc => jsSort cmpSizeDesc neos

/-- The re-sort of the legacy revision (`src/hooks/useNeoFeed.ts` lines
111-124): only the two approach policies sort; the size policies leave the
extended list as pushed. -/
def resortGroupLegacy (so : SortOrder) (neos : List NEO) : List NEO :=
  match so with
  | SortOrder.approach_asc => jsSort cmpApproachAsc neos
  | SortOrder.approach_desc => jsSort cmpApproachDesc neos
  | _ => neos

/-- One `Map.set` step of `new Map(prevData.map(g => [g.date, g]))`: a later
group with an already-present date overwrites in place, a new date is
appended. -/
def mapSet (m : List DayGroup) (g : DayGroup) : List DayGroup :=
  if m.any (fun x => x.date = g.date) then
    m.map (fun x => if x.date = g.date then g else x)
  else m ++ [g]

/-- The map of held groups keyed by date, in insertion order. -/
def buildMap (prev : List DayGroup) : List DayGroup := prev.foldl mapSet []

/-- The objects of the incoming group whose `id` is not among the held
group's ids: `group.neos.forEach` pushes exactly these (the id set
`existingIds` is computed once, before the pushes). -/
def newOnesOf (eg g : DayGroup) : List NEO :=
  g.neos.filter (fun n => !(eg.neos.map NEO.id).contains n.id)

/-- The held group after the pushes and the re-sort: same date, `count`
bumped once per pushed object, object list extended then re-sorted. -/
def mergedOf (resort : List NEO → List NEO) (eg g : DayGroup) : DayGroup where
  date := eg.date
  count := eg.count + (newOnesOf eg g).length
  neos := resort (eg.neos ++ newOnesOf eg g)

/-- One iteration of the `newData.forEach` merge loop (`src/unnamed/part_003`
lines 228-272), parameterized by the active re-sort: an incoming group whose
date is held mutates the held group into `mergedOf`; a new date is
appended. -/
def mergeStep (resort : List NEO → List NEO) (m : List DayGroup) (g : DayGroup) :
    List DayGroup :=
  match m.find? (fun x => x.date = g.date) with
  | some eg => m.map (fun x => if x.date = g.date then mergedOf resort eg g else x)
  | none => m ++ [g]

/-- The whole merge body of `loadMore`: build the date map from the held
groups, fold the incoming groups through `mergeStep`, and sort the resulting
values by date. -/
def mergeFeed (resort : List NEO → List NEO) (prev incoming : List DayGroup) :
    List DayGroup :=
  (incoming.foldl (mergeStep resort) (buildMap prev)).insertionSort
    (fun a b => strLe a.date b.date = true)

/-- The merge of the current revision (`src/unnamed/part_003` lines 223-278). -/
def loadMoreMerge (so : SortOrder) (prev incoming : List DayGroup) : List DayGroup :=
  mergeFeed (resortGroup so) prev incoming

/-- The merge of the legacy revision (`src/hooks/useNeoFeed.ts` lines 92-135). -/
def loadMoreMergeLegacy (so : SortOrder) (prev incoming : List DayGroup) : List DayGroup :=
  mergeFeed (resortGroupLegacy so) prev incoming

/-! ### The `/api/neos` route parameter validation (`src/unnamed/part_006`,
first revision, lines 32-99). -/

/-- The anchored pattern `/^\d{4}-\d{2}-\d{2}$/` of `QuerySchema`. -/
def dateFormatOk (s : String) : Bool :=
  match s.data with
  | [y1, y2, y3, y4, h1, m1, m2, h2, d1, d2] =>
    y1.isDigit && y2.isDigit && y3.isDigit && y4.isDigit &&
    h1 = '-' && m1.isDigit && m2.isDigit && h2 = '-' && d1.isDigit && d2.isDigit
  | _ => false

/-- Gregorian leap-year test. -/
def isLeap (y : Int) : Bool := y % 4 = 0 && (y % 100 ≠ 0 || y % 400 = 0)

/-- Days in a month of the proleptic Gregorian calendar. -/
def daysInMonth (y m : Int) : Int :=
  if m = 2 then (if isLeap y then 29 else 28)
  else if m = 4 ∨ m = 6 ∨ m = 9 ∨ m = 11 then 30
  else 31

/-- Days since 1970-01-01 of a civil date (standard era-based algorithm);
the numeric content of `new Date("YYYY-MM-DD").getTime()` divided by the
milliseconds of a day. -/
def daysFromCivil (y m d : Int) : Int :=
  let yAdj := if m ≤ 2 then y - 1 else y
  let era := (if 0 ≤ yAdj then yAdj else yAdj - 399) / 400
  let yoe := yAdj - era * 400
  let mp := (m + 9) % 12
  let doy := (153 * mp + 2) / 5 + d - 1
  let doe := yoe * 365 + yoe / 4 - yoe / 100 + doy
  era * 146097 + doe - 719468

/-- Numeric value of one of the digit characters. -/
def dval (c : Char) : Int := Int.ofNat (c.toNat - '0'.toNat)

/-- Modeled from the ECMAScript `new Date(s)` parser on `YYYY-MM-DD` input:
a well-formatted string with an in-range calendar date parses to its UTC
epoch day; out-of-range components give an invalid date (`none`, the model
of a `NaN` time value). -/
def parseDateUTC (s : String) : Option Int :=
  match s.data with
  | [y1, y2, y3, y4, h1, m1, m2, h2, d1, d2] =>
    if (y1.isDigit && y2.isDigit && y3.isDigit && y4.isDigit &&
        h1 = '-' && m1.isDigit && m2.isDigit && h2 = '-' && d1.isDigit && d2.isDigit) then
      let y := 1000 * dval y1 + 100 * dval y2 + 10 * dval y3 + dval y4
      let m := 10 * dval m1 + dval m2
      let d := 10 * dval d1 + dval d2
      if 1 ≤ m ∧ m ≤ 12 ∧ 1 ≤ d ∧ d ≤ daysInMonth y m then
        some (daysFromCivil y m d)
      else none
    else none
  | _ => none

/-- Whether a supplied `sort` query value passes the `z.enum` check. -/
def sortParamOk (s : String) : Bool :=
  s = "approach_asc" || s = "approach_desc" || s = "size_asc" || s = "size_desc"

/-- Whether a supplied `hazardous` query value passes the optional
`z.enum(["true", "false"])` check. -/
def hazardousParamOk : Option String → Bool
  | none => true
  | some s => s = "true" || s = "false"

/-- Decoded sort policy used after validation. -/
def decodeSort (s : String) : SortOrder :=
  if s = "approach_desc" then SortOrder.approach_desc
  else if s = "size_asc" then SortOrder.size_asc
  else if s = "size_desc" then SortOrder.size_desc
  else SortOrder.approach_asc

/-- Outcome of the route handler up to the upstream fetch: either an error
response with its HTTP status, or the fetch is reached with the validated
parameters. -/
inductive NeosResponse : Type
  | errorResponse : Nat → String → NeosResponse
  | fetchFeed : String → String → Bool → SortOrder → NeosResponse
deriving DecidableEq, Repr

/-- Embeds the validation pipeline of `GET` (`src/unnamed/part_006` lines
52-115): the `QuerySchema.safeParse` check, then the date parsing with the
`isNaN` guard, the inverted-range guard on
`Math.floor((end - start) / 86400000)`, and the 7-day limit, all before
`fetchNeoFeed` is invoked. Arguments are the resolved query parameters
(after the defaulting on lines 53-56). -/
def neosGET (start_d end_d : String) (hazardous : Option String) (sort : String) :
    NeosResponse :=
  if ¬(dateFormatOk start_d && dateFormatOk end_d &&
       hazardousParamOk hazardous && sortParamOk sort) then
    NeosResponse.errorResponse 400 "Invalid parameters"
  else
    match parseDateUTC start_d, parseDateUTC end_d with
    | some sd, some ed =>
      if ed - sd < 0 then
        NeosResponse.errorResponse 400 "End date must be after start date"
      else if ed - sd > 7 then
        NeosResponse.errorResponse 400 "Date range cannot exceed 7 days (NASA API limitation)"
      else NeosResponse.fetchFeed start_d end_d (hazardous = some "true") (decodeSort sort)
    | _, _ => NeosResponse.errorResponse 400 "Invalid date format"

/-! ### Specification-side definitions, written from the words of the spec
(and of the amended claims) for comparison with the embedded code. -/

/-- Keep-before relation of a key-based comparison in the spec's words: an
element with a missing key always sorts after one with a present key, two
missing keys tie, and present keys compare in the requested direction. -/
def leGen {α : Type} {K : Type} [LinearOrderedRing K]
    (miss : α → Bool) (key : α → K) (desc : Bool) (a b : α) : Bool :=
  if miss a then miss b
  else if miss b then true
  else if desc then decide (key b ≤ key a) else decide (key a ≤ key b)

/-- First element of a list attaining the minimal key: the spec's
"stable-sort ascending by the key and pick the first". -/
def specArgminKey {α : Type} {K : Type} [LinearOrder K] (key : α → K) :
    List α → Option α
  | [] => none
  | a :: l =>
    match specArgminKey key l with
    | none => some a
    | some c => if key a ≤ key c then some a else some c

/-- The spec's sort key of the approach policies over a normalized object,
as amended: the nearest-approach epoch when it exists, is non-null and
non-zero, otherwise missing. -/
def specApproachKey (n : NEO) : Option Int :=
  match n.nearestApproach with
  | none => none
  | some ap =>
    match ap.epoch with
    | JsOpt.val e => if e = 0 then none else some e
    | _ => none

/-- The spec's keep-before relation over optional keys: a `none` key sorts
after every present key regardless of direction, two `none` keys tie, and
present keys compare in the requested direction. -/
def specKeyLe {K : Type} [LinearOrder K] (desc : Bool) : Option K → Option K → Bool
  | none, b => b = none
  | some _, none => true
  | some x, some y => if desc then decide (y ≤ x) else decide (x ≤ y)

/-- In-group sort in the spec's words, as amended: the approach policies
stable-sort by the approach key with missing keys last; the size policies
do not sort in the aggregator. -/
def specSortInGroup (so : SortOrder) (neos : List NEO) : List NEO :=
  match so with
  | SortOrder.approach_asc =>
    neos.insertionSort (fun a b => specKeyLe false (specApproachKey a) (specApproachKey b) = true)
  | SortOrder.approach_desc =>
    neos.insertionSort (fun a b => specKeyLe true (specApproachKey a) (specApproachKey b) = true)
  | _ => neos

/-- The aggregator in the spec's words, as amended: filter by hazard flag,
normalize, sort per `specSortInGroup`, set `count` to the group size, and
order the groups by date. -/
def specAggregate (entries : List (String × List RawNeo))
    (hazardousOnly : Bool) (so : SortOrder) : List DayGroup :=
  (entries.map (fun e =>
    let normalizedNeos := specSortInGroup so
      ((e.2.filter (fun neo => !hazardousOnly || neo.is_potentially_hazardous_asteroid)).map
        normalizeNeo)
    { date := e.1, count := normalizedNeos.length, neos := normalizedNeos : DayGroup })).insertionSort
    (fun a b => strLe a.date b.date = true)

/-- The normalized approach in the amended spec's words, with explicit case
analysis on the tri-state raw fields: `datetime` prefers the non-empty full
timestamp, then the non-empty date string, else null; `epoch` is the raw
field unchanged; the float fields parse the nested string when present and
non-empty and are null otherwise; `orbitingBody` is the non-empty raw
string or null. -/
def specNormalizeApproach (a : RawApproach) : Approach where
  datetime :=
    match a.close_approach_date_full with
    | JsOpt.val s =>
      if s = "" then
        match a.close_approach_date with
        | JsOpt.val t => if t = "" then none else some t
        | _ => none
      else some s
    | _ =>
      match a.close_approach_date with
      | JsOpt.val t => if t = "" then none else some t
      | _ => none
  epoch := a.epoch_date_close_approach
  velocityKps :=
    match velocityChain a with
    | JsOpt.val s => if s = "" then none else some (jsParseFloat s)
    | _ => none
  missDistanceKm :=
    match missChain a with
    | JsOpt.val s => if s = "" then none else some (jsParseFloat s)
    | _ => none
  orbitingBody :=
    match a.orbiting_body with
    | JsOpt.val s => if s = "" then none else some s
    | _ => none

/-- Average diameter in the amended spec's words: `(min+max)/2` when both
bounds are present, non-null and non-zero; null otherwise. -/
def specAvgDiameter (n : RawNeo) : Option ℚ :=
  match rawMinKm n, rawMaxKm n with
  | JsOpt.val mn, JsOpt.val mx =>
    if mn = 0 ∨ mx = 0 then none else some ((mn + mx) / 2)
  | _, _ => none

/-- The keep-before relation actually applied by the merge engine's re-sort
under a policy: the relation the four comparators of
`src/unnamed/part_003` induce under a stable sort. -/
def policyLe (so : SortOrder) : NEO → NEO → Bool :=
  match so with
  | SortOrder.approach_asc => leGen neoApproachMissing neoEpochVal false
  | SortOrder.approach_desc => leGen neoApproachMissing neoEpochVal true
  | SortOrder.size_asc => leGen neoSizeMissing neoSizeVal false
  | SortOrder.size_desc => leGen neoSizeMissing neoSizeVal true

/-- Dates of a list of groups. -/
def datesOf (m : List DayGroup) : List String := m.map DayGroup.date

/-- The count invariant of a group. -/
def countInv (g : DayGroup) : Prop := g.count = g.neos.length

/-- Presence of an object id under a date. -/
def hasId (m : List DayGroup) (d : String) (i : String) : Prop :=
  ∃ x ∈ m, x.date = d ∧ i ∈ x.neos.map NEO.id

/-- Presence of a normalized object under a date. -/
def hasNeo (m : List DayGroup) (d : String) (n : NEO) : Prop :=
  ∃ x ∈ m, x.date = d ∧ n ∈ x.neos

/-! ### Concrete inputs used by counterexamples and witnesses. -/

/-- A raw approach record with only a date string and a given epoch field. -/
def apWithEpoch (e : JsOpt Int) : RawApproach where
  close_approach_date := JsOpt.val "2025-08-15"
  close_approach_date_full := JsOpt.undef
  epoch_date_close_approach := e
  relative_velocity := JsOpt.undef
  miss_distance := JsOpt.undef
  orbiting_body := JsOpt.undef

/-- A raw record with approaches of epoch `0` and epoch `5`. -/
def rawNeoEpochZero : RawNeo where
  id := "1"
  name := "zero-epoch"
  is_potentially_hazardous_asteroid := false
  estimated_diameter := JsOpt.undef
  close_approach_data := JsOpt.val [apWithEpoch (JsOpt.val 0), apWithEpoch (JsOpt.val 5)]
  nasa_jpl_url := JsOpt.undef

/-- A raw record with a given diameter pair and no approaches. -/
def rawNeoWithDiameter (i : String) (mn mx : JsOpt ℚ) : RawNeo where
  id := i
  name := i
  is_potentially_hazardous_asteroid := false
  estimated_diameter := JsOpt.val
    { kilometers := JsOpt.val { estimated_diameter_min := mn, estimated_diameter_max := mx } }
  close_approach_data := JsOpt.val []
  nasa_jpl_url := JsOpt.undef

/-- Both diameter bounds present, the minimum equal to zero. -/
def rawNeoZeroDiameter : RawNeo := rawNeoWithDiameter "zero-min" (JsOpt.val 0) (JsOpt.val 2)

/-- Two records whose average diameters are 2 and 1, listed larger first. -/
def aggEntriesSize : List (String × List RawNeo) :=
  [("2025-08-15",
    [rawNeoWithDiameter "big" (JsOpt.val 2) (JsOpt.val 2),
     rawNeoWithDiameter "small" (JsOpt.val 1) (JsOpt.val 1)])]

/-- A raw approach whose epoch field is absent and whose velocity string is
not parseable as a number. -/
def rawApproachBad : RawApproach where
  close_approach_date := JsOpt.val "2025-08-15"
  close_approach_date_full := JsOpt.undef
  epoch_date_close_approach := JsOpt.undef
  relative_velocity := JsOpt.val { kilometers_per_second := JsOpt.val "abc" }
  miss_distance := JsOpt.undef
  orbiting_body := JsOpt.undef

/-- A normalized object with a given id, epoch field and average diameter. -/
def neoLit (i : String) (ep : JsOpt Int) (dia : Option ℚ) : NEO where
  id := i
  name := i
  hazardous := false
  avgDiameterKm := dia
  nearestApproach := some
    { datetime := none, epoch := ep, velocityKps := none,
      missDistanceKm := none, orbitingBody := none }
  approachesCount := 1
  nasaUrl := ""

/-- An incoming group whose objects are not sorted by approach epoch. -/
def incUnsorted : DayGroup where
  date := "2025-08-15"
  count := 2
  neos := [neoLit "x" (JsOpt.val 200) none, neoLit "y" (JsOpt.val 100) none]

/-- A held group with diameters 2 then 1. -/
def heldSizeGroup : DayGroup where
  date := "2025-08-15"
  count := 2
  neos := [neoLit "a" JsOpt.null (some 2), neoLit "b" JsOpt.null (some 1)]

/-- An incoming group with one new object of diameter 3 under the held date. -/
def incSizeGroup : DayGroup where
  date := "2025-08-15"
  count := 1
  neos := [neoLit "c" JsOpt.null (some 3)]

/-- Held collection for the merge witnesses. -/
def prevWitness : List DayGroup :=
  [{ date := "2025-08-14", count := 1, neos := [neoLit "a" (JsOpt.val 50) none] }]

/-- Incoming collection for the merge witnesses: one group extends the held
date, one opens a new date; each group is sorted and duplicate-free. -/
def incWitness : List DayGroup :=
  [{ date := "2025-08-14", count := 1, neos := [neoLit "b" (JsOpt.val 10) none] },
   { date := "2025-08-15", count := 1, neos := [neoLit "c" (JsOpt.val 30) none] }]

/-- Payload entry whose only record is non-hazardous. -/
def entriesNonHazardous : List (String × List RawNeo) :=
  [("2025-08-15", [rawNeoWithDiameter "nh" JsOpt.undef JsOpt.undef])]

/-! ## Generic facts about the JavaScript sort model. -/

theorem orderedInsert_brel_congr {α : Type} {p q : α → α → Bool}
    (h : ∀ a b, p a b = q a b) (a : α) :
    ∀ l : List α, l.orderedInsert (fun x y => p x y = true) a =
      l.orderedInsert (fun x y => q x y = true) a
  | [] => rfl
  | b :: l => by
    by_cases hab : p a b = true
    · rw [List.orderedInsert, List.orderedInsert, if_pos hab, if_pos (h a b ▸ hab)]
    · rw [List.orderedInsert, List.orderedInsert, if_neg hab, if_neg (h a b ▸ hab),
        orderedInsert_brel_congr h a l]

theorem insertionSort_brel_congr {α : Type} {p q : α → α → Bool}
    (h : ∀ a b, p a b = q a b) :
    ∀ l : List α, l.insertionSort (fun x y => p x y = true) =
      l.insertionSort (fun x y => q x y = true)
  | [] => rfl
  | a :: l => by
    rw [List.insertionSort, List.insertionSort, insertionSort_brel_congr h l,
      orderedInsert_brel_congr h a]

theorem jsLe_jsKeyCmp {α K : Type} [LinearOrderedRing K]
    (miss : α → Bool) (key : α → K) (desc : Bool) (a b : α) :
    jsLe (jsKeyCmp miss key desc) a b = leGen miss key desc a b := by
  apply Bool.eq_iff_iff.mpr
  unfold jsLe jsKeyCmp leGen
  by_cases ha : miss a = true <;> by_cases hb : miss b = true <;>
    simp only [ha, hb, if_true, if_false, Bool.not_eq_true] at * <;>
    simp only [ha, hb, if_true, if_false, Bool.or_eq_true, Bool.and_eq_true,
      decide_eq_true_eq]
  · norm_num
  · norm_num
  · norm_num
  · cases desc <;>
      simp only [if_true, if_false, Bool.false_eq_true, decide_eq_true_eq] <;>
      constructor
    · rintro (h | ⟨h1, h2⟩)
      · exact sub_nonpos.mp h
      · exact absurd (sub_pos.mp h2) (not_lt.mpr (le_of_lt (sub_pos.mp h1)))
    · intro h
      exact Or.inl (sub_nonpos.mpr h)
    · rintro (h | ⟨h1, h2⟩)
      · exact sub_nonpos.mp h
      · exact absurd (sub_pos.mp h2) (not_lt.mpr (le_of_lt (sub_pos.mp h1)))
    · intro h
      exact Or.inl (sub_nonpos.mpr h)

theorem leGen_total {α K : Type} [LinearOrderedRing K]
    (miss : α → Bool) (key : α → K) (desc : Bool) (a b : α) :
    leGen miss key desc a b = true ∨ leGen miss key desc b a = true := by
  unfold leGen
  by_cases ha : miss a = true <;> by_cases hb : miss b = true <;>
    cases desc <;> simp [ha, hb, le_total]

theorem leGen_trans {α K : Type} [LinearOrderedRing K]
    (miss : α → Bool) (key : α → K) (desc : Bool) (a b c : α)
    (hab : leGen miss key desc a b = true) (hbc : leGen miss key desc b c = true) :
    leGen miss key desc a c = true := by
  by_cases ha : miss a = true <;> by_cases hb : miss b = true <;>
    by_cases hc : miss c = true <;>
    cases desc <;>
    simp_all [leGen] <;>
    first
    | exact le_trans hbc hab
    | exact le_trans hab hbc

theorem sorted_insertionSort_leGen {α K : Type} [LinearOrderedRing K]
    (miss : α → Bool) (key : α → K) (desc : Bool) (l : List α) :
    List.Sorted (fun a b => leGen miss key desc a b = true)
      (l.insertionSort (fun a b => leGen miss key desc a b = true)) := by
  haveI : IsTotal α (fun a b => leGen miss key desc a b = true) :=
    ⟨leGen_total miss key desc⟩
  haveI : IsTrans α (fun a b => leGen miss key desc a b = true) :=
    ⟨leGen_trans miss key desc⟩
  exact List.sorted_insertionSort _ l

theorem head?_insertionSort_keyLe {α K : Type} [LinearOrder K] (key : α → K) :
    ∀ l : List α,
      (l.insertionSort (fun a b => decide (key a ≤ key b) = true)).head? =
        specArgminKey key l
  | [] => rfl
  | a :: l => by
    rw [List.insertionSort]
    cases hi : l.insertionSort (fun a b => decide (key a ≤ key b) = true) with
    | nil =>
      have hspec : specArgminKey key l = none := by
        rw [← head?_insertionSort_keyLe key l, hi]
        rfl
      have hcons : specArgminKey key (a :: l) = some a := by
        simp [specArgminKey, hspec]
      rw [hcons, List.orderedInsert]
      rfl
    | cons b m =>
      have hspec : specArgminKey key l = some b := by
        rw [← head?_insertionSort_keyLe key l, hi]
        rfl
      have hcons : specArgminKey key (a :: l) =
          if key a ≤ key b then some a else some b := by
        simp [specArgminKey, hspec]
      rw [hcons, List.orderedInsert]
      by_cases hab : key a ≤ key b
      · rw [if_pos (by simpa using hab), if_pos hab]
        rfl
      · rw [if_neg (by simpa using hab), if_neg hab]
        rfl

/-! ## Bridges between the embedded comparators and the spec-side relations. -/

theorem jsSort_keyCmp_eq {α K : Type} [LinearOrderedRing K]
    (miss : α → Bool) (key : α → K) (desc : Bool) (l : List α) :
    jsSort (jsKeyCmp miss key desc) l =
      l.insertionSort (fun a b => leGen miss key desc a b = true) :=
  insertionSort_brel_congr (jsLe_jsKeyCmp miss key desc) l

theorem cmpEpochAsc_eq_keyCmp :
    cmpEpochAsc = jsKeyCmp (fun _ => false) epochOrMax false := by
  funext a b
  simp [cmpEpochAsc, jsKeyCmp]

theorem leGen_nomiss {α K : Type} [LinearOrderedRing K] (key : α → K) (a b : α) :
    leGen (fun _ => false) key false a b = decide (key a ≤ key b) := by
  simp [leGen]

theorem jsSort_cmpEpochAsc_eq (l : List RawApproach) :
    jsSort cmpEpochAsc l =
      l.insertionSort (fun a b => decide (epochOrMax a ≤ epochOrMax b) = true) := by
  rw [cmpEpochAsc_eq_keyCmp, jsSort_keyCmp_eq]
  exact insertionSort_brel_congr (leGen_nomiss epochOrMax) l

theorem specArgminKey_cons_ne_none {α K : Type} [LinearOrder K]
    (key : α → K) (a : α) (l : List α) : specArgminKey key (a :: l) ≠ none := by
  rw [specArgminKey]
  cases specArgminKey key l with
  | none => simp
  | some c =>
    by_cases h : key a ≤ key c <;> simp [h]

theorem specApproachKey_none_iff (n : NEO) :
    specApproachKey n = none ↔ neoApproachMissing n = true := by
  unfold specApproachKey neoApproachMissing
  cases n.nearestApproach with
  | none => simp
  | some ap =>
    cases hep : ap.epoch with
    | undef => simp [hep]
    | null => simp [hep]
    | val e =>
      by_cases he : e = 0 <;> simp [hep, he]

theorem specApproachKey_some_val (n : NEO) (e : Int)
    (h : specApproachKey n = some e) : neoEpochVal n = e := by
  unfold specApproachKey at h
  unfold neoEpochVal
  cases hna : n.nearestApproach with
  | none => simp [hna] at h
  | some ap =>
    simp only [hna] at h ⊢
    cases hep : ap.epoch with
    | undef => simp [hep] at h
    | null => simp [hep] at h
    | val x =>
      simp only [hep] at h ⊢
      by_cases hx : x = 0
      · simp [hx] at h
      · simp only [if_neg hx, Option.some.injEq] at h
        exact h

theorem leGen_approach_eq_specKeyLe (desc : Bool) (a b : NEO) :
    leGen neoApproachMissing neoEpochVal desc a b =
      specKeyLe desc (specApproachKey a) (specApproachKey b) := by
  rcases hka : specApproachKey a with _ | ea <;> rcases hkb : specApproachKey b with _ | eb
  · have ha := (specApproachKey_none_iff a).mp hka
    have hb := (specApproachKey_none_iff b).mp hkb
    simp [leGen, specKeyLe, ha, hb]
  · have ha := (specApproachKey_none_iff a).mp hka
    have hb : neoApproachMissing b = false := by
      rcases hbv : neoApproachMissing b with _ | _
      · rfl
      · exact absurd ((specApproachKey_none_iff b).mpr hbv) (by simp [hkb])
    simp [leGen, specKeyLe, ha, hb]
  · have hb := (specApproachKey_none_iff b).mp hkb
    have ha : neoApproachMissing a = false := by
      rcases hav : neoApproachMissing a with _ | _
      · rfl
      · exact absurd ((specApproachKey_none_iff a).mpr hav) (by simp [hka])
    simp [leGen, specKeyLe, ha, hb]
  · have ha : neoApproachMissing a = false := by
      rcases hav : neoApproachMissing a with _ | _
      · rfl
      · exact absurd ((specApproachKey_none_iff a).mpr hav) (by simp [hka])
    have hb : neoApproachMissing b = false := by
      rcases hbv : neoApproachMissing b with _ | _
      · rfl
      · exact absurd ((specApproachKey_none_iff b).mpr hbv) (by simp [hkb])
    have h1 := specApproachKey_some_val a ea hka
    have h2 := specApproachKey_some_val b eb hkb
    cases desc <;> simp [leGen, specKeyLe, ha, hb, h1, h2]

theorem sortInGroup_eq_spec (so : SortOrder) (l : List NEO) :
    sortInGroup so l = specSortInGroup so l := by
  cases so with
  | approach_asc =>
    show jsSort cmpApproachAsc l = _
    rw [cmpApproachAsc, jsSort_keyCmp_eq]
    exact insertionSort_brel_congr (leGen_approach_eq_specKeyLe false) l
  | approach_desc =>
    show jsSort cmpApproachDesc l = _
    rw [cmpApproachDesc, jsSort_keyCmp_eq]
    exact insertionSort_brel_congr (leGen_approach_eq_specKeyLe true) l
  | size_asc => rfl
  | size_desc => rfl

/-! ## Claim C2: nearest-approach selection. -/

/-- C2, counterexample to the claim as stated: the record
`rawNeoEpochZero` has approaches with (non-null) epochs `0` and `5`; the
claim requires `nearestApproach` to carry the smallest non-null epoch `0`,
but `normalizeNeo` selects the approach with epoch `5`, because the falsy
coercion `epoch || MAX_SAFE_INTEGER` treats a zero epoch as missing. -/
theorem claim_C2_counterexample :
    (normalizeNeo rawNeoEpochZero).nearestApproach.map Approach.epoch =
      some (JsOpt.val 5) ∧
    (rawApproachesOf rawNeoEpochZero).map RawApproach.epoch_date_close_approach =
      [JsOpt.val 0, JsOpt.val 5] := by
  decide

/-- C2, amended: for every raw record, `nearestApproach` is the normalized
image of the first approach attaining the minimal coerced epoch
`epoch_date_close_approach || MAX_SAFE_INTEGER` (so a null or zero epoch is
treated as largest possible, and ties keep original array order), and
`nearestApproach` is null exactly when the record has zero approaches. -/
theorem claim_C2_nearest_approach (r : RawNeo) :
    (normalizeNeo r).nearestApproach =
      (specArgminKey epochOrMax (rawApproachesOf r)).map normalizeApproach ∧
    ((normalizeNeo r).nearestApproach = none ↔ rawApproachesOf r = []) := by
  have hmain : (normalizeNeo r).nearestApproach =
      (specArgminKey epochOrMax (rawApproachesOf r)).map normalizeApproach := by
    cases hap : rawApproachesOf r with
    | nil => simp [normalizeNeo, hap, specArgminKey]
    | cons a t =>
      simp only [normalizeNeo, hap, List.length_cons]
      rw [if_pos (Nat.succ_pos t.length), jsSort_cmpEpochAsc_eq,
        head?_insertionSort_keyLe]
  refine ⟨hmain, ?_⟩
  rw [hmain]
  cases hap : rawApproachesOf r with
  | nil => simp [specArgminKey]
  | cons a t =>
    rcases hsa : specArgminKey epochOrMax (a :: t) with _ | c
    · exact absurd hsa (specArgminKey_cons_ne_none _ _ _)
    · simp [hsa]

/-! ## Claim C3: average diameter. -/

/-- C3, counterexample to the claim as stated: `rawNeoZeroDiameter` has
both diameter bounds present (`0` and `2`), so the claim requires
`avgDiameterKm = (0+2)/2 = 1`, but `normalizeNeo` returns null because the
truthiness test `minDiameter && maxDiameter` treats the zero bound as
absent. -/
theorem claim_C3_counterexample :
    (normalizeNeo rawNeoZeroDiameter).avgDiameterKm = none ∧
    rawMinKm rawNeoZeroDiameter = JsOpt.val 0 ∧
    rawMaxKm rawNeoZeroDiameter = JsOpt.val 2 := by
  decide

/-- C3, amended: for every raw record, `avgDiameterKm` equals
`(min+max)/2` whenever both bounds are present, non-null and non-zero, and
is null exactly when a bound is absent, null, or zero (JS falsiness). -/
theorem claim_C3_avg_diameter (r : RawNeo) :
    (normalizeNeo r).avgDiameterKm = specAvgDiameter r := by
  unfold normalizeNeo specAvgDiameter
  rcases hmn : rawMinKm r with _ | _ | mn <;> rcases hmx : rawMaxKm r with _ | _ | mx <;>
    simp only [hmn, hmx, jsTruthyNum] <;>
    try rfl
  all_goals try (by_cases h1 : mn = 0 <;> by_cases h2 : mx = 0 <;> simp [h1, h2])
  all_goals try (by_cases h1 : mn = 0 <;> simp [h1])

/-! ## Claim C6: approach normalization. -/

/-- C6, counterexample to the claim as stated: on `rawApproachBad` — epoch
field absent, velocity string `"abc"` — the claim requires `epochMillis` to
be null and the velocity never `NaN`; `normalizeApproach` instead passes
the absent epoch through as undefined and produces `NaN` from
`parseFloat("abc")`. -/
theorem claim_C6_counterexample :
    (normalizeApproach rawApproachBad).epoch = JsOpt.undef ∧
    (JsOpt.undef : JsOpt Int) ≠ JsOpt.null ∧
    (normalizeApproach rawApproachBad).velocityKps = some JsNumber.nan := by
  decide

/-- C6, amended: for every raw approach, normalization is total and fieldwise
as follows: `epochMillis` is the raw epoch field passed through unchanged
(value when present, null when null, undefined when absent); velocity and
miss-distance are `parseFloat` of the nested string when that string is
present and non-empty — hence `NaN` when it is unparseable — and null
otherwise; `datetime` falls back full timestamp, then date string, then
null, through JS truthiness; `orbitingBody` is the non-empty raw string or
null. -/
theorem claim_C6_normalize_approach (a : RawApproach) :
    normalizeApproach a = specNormalizeApproach a := by
  unfold normalizeApproach specNormalizeApproach
  simp only [Approach.mk.injEq]
  refine ⟨?_, trivial, ?_, ?_, ?_⟩
  · rcases hf : a.close_approach_date_full with _ | _ | s
    · rcases hd : a.close_approach_date with _ | _ | t
      · simp [jsTruthyStr, hf, hd]
      · simp [jsTruthyStr, hf, hd]
      · by_cases ht : t = "" <;> simp [jsTruthyStr, hf, hd, ht]
    · rcases hd : a.close_approach_date with _ | _ | t
      · simp [jsTruthyStr, hf, hd]
      · simp [jsTruthyStr, hf, hd]
      · by_cases ht : t = "" <;> simp [jsTruthyStr, hf, hd, ht]
    · by_cases hs : s = ""
      · rcases hd : a.close_approach_date with _ | _ | t
        · simp [jsTruthyStr, hf, hd, hs]
        · simp [jsTruthyStr, hf, hd, hs]
        · by_cases ht : t = "" <;> simp [jsTruthyStr, hf, hd, hs, ht]
      · simp [jsTruthyStr, hf, hs]
  · rcases hv : velocityChain a with _ | _ | s
    · simp [jsTruthyStr, hv]
    · simp [jsTruthyStr, hv]
    · by_cases hs : s = "" <;> simp [jsTruthyStr, hv, hs]
  · rcases hm : missChain a with _ | _ | s
    · simp [jsTruthyStr, hm]
    · simp [jsTruthyStr, hm]
    · by_cases hs : s = "" <;> simp [jsTruthyStr, hm, hs]
  · rcases ho : a.orbiting_body with _ | _ | s
    · simp [jsTruthyStr, ho]
    · simp [jsTruthyStr, ho]
    · by_cases hs : s = "" <;> simp [jsTruthyStr, ho, hs]

/-! ## Claim C4: in-group sorting of the feed aggregator. -/

/-- C4, counterexample to the claim as stated: under the `size_asc` policy
the aggregator leaves the two objects of `aggEntriesSize` in payload order
`[big, small]` although their average diameters are 2 and 1, so the group
is not ordered by `avgDiameterKm` ascending. -/
theorem claim_C4_counterexample :
    (normalizeNeoData aggEntriesSize false SortOrder.size_asc).map
        (fun g => g.neos.map NEO.id) = [["big", "small"]] ∧
    (normalizeNeo (rawNeoWithDiameter "big" (JsOpt.val 2) (JsOpt.val 2))).avgDiameterKm
      = some 2 ∧
    (normalizeNeo (rawNeoWithDiameter "small" (JsOpt.val 1) (JsOpt.val 1))).avgDiameterKm
      = some 1 ∧
    ¬ ((2 : ℚ) ≤ 1) := by
  refine ⟨by decide, ?_, ?_, by decide⟩
  · simp [normalizeNeo, rawNeoWithDiameter, rawMinKm, rawMaxKm, jsTruthyNum]
  · simp [normalizeNeo, rawNeoWithDiameter, rawMinKm, rawMaxKm, jsTruthyNum]

/-- C4, amended: the aggregator orders each date group under the two
approach policies only — by nearest-approach epoch, where an object whose
nearest approach is absent or whose epoch is null or zero always sorts
after every object with a usable epoch regardless of direction, and ties
keep original array order (the stable sort over `specKeyLe`); under the two
size policies the aggregator applies no sort and the objects stay in
payload order. -/
theorem claim_C4_sorting (entries : List (String × List RawNeo))
    (hazardousOnly : Bool) (so : SortOrder) :
    normalizeNeoData entries hazardousOnly so = specAggregate entries hazardousOnly so := by
  have hs : sortInGroup so = specSortInGroup so := funext (sortInGroup_eq_spec so)
  unfold normalizeNeoData specAggregate
  simp only [hs]

/-! ## Claim C9: feed route parameter validation. -/

/-- C9: whenever a supplied date is not in `YYYY-MM-DD` format, or the end
date parses to an earlier day than the start date, or the parsed range is
longer than 7 days, the route answers HTTP 400 and the upstream fetch
(`NeosResponse.fetchFeed`) is never reached. -/
theorem claim_C9_validation (s e : String) (h : Option String) (srt : String)
    (hbad : dateFormatOk s = false ∨ dateFormatOk e = false ∨
      (∃ sd ed, parseDateUTC s = some sd ∧ parseDateUTC e = some ed ∧ ed < sd) ∨
      (∃ sd ed, parseDateUTC s = some sd ∧ parseDateUTC e = some ed ∧ ed - sd > 7)) :
    ∃ msg, neosGET s e h srt = NeosResponse.errorResponse 400 msg := by
  unfold neosGET
  by_cases hq : (dateFormatOk s && dateFormatOk e &&
      hazardousParamOk h && sortParamOk srt) = true
  · rw [if_neg (not_not_intro hq)]
    rcases hps : parseDateUTC s with _ | sd
    · exact ⟨_, rfl⟩
    · rcases hpe : parseDateUTC e with _ | ed
      · exact ⟨_, rfl⟩
      · have hfmt : dateFormatOk s = true ∧ dateFormatOk e = true := by
          simp only [Bool.and_eq_true] at hq
          exact ⟨hq.1.1.1, hq.1.1.2⟩
        rcases hbad with hb | hb | hb | hb
        · rw [hfmt.1] at hb
          exact absurd hb (by simp)
        · rw [hfmt.2] at hb
          exact absurd hb (by simp)
        · rcases hb with ⟨sd1, ed1, hs1, he1, hlt⟩
          rw [hps, Option.some.injEq] at hs1
          rw [hpe, Option.some.injEq] at he1
          subst hs1
          subst he1
          refine ⟨"End date must be after start date", ?_⟩
          have hneg : ed - sd < 0 := by omega
          simp [hneg]
        · rcases hb with ⟨sd1, ed1, hs1, he1, hgt⟩
          rw [hps, Option.some.injEq] at hs1
          rw [hpe, Option.some.injEq] at he1
          subst hs1
          subst he1
          refine ⟨"Date range cannot exceed 7 days (NASA API limitation)", ?_⟩
          have h1 : ¬ (ed - sd < 0) := by omega
          have h2 : ed - sd > 7 := by omega
          simp [h1, h2]
  · rw [if_pos hq]
    exact ⟨_, rfl⟩

/-- C9, witness: the inverted range 2025-08-15 to 2025-08-10 is rejected
with a 400 response. -/
theorem claim_C9_witness :
    ∃ msg, neosGET "2025-08-15" "2025-08-10" none "approach_asc" =
      NeosResponse.errorResponse 400 msg :=
  claim_C9_validation "2025-08-15" "2025-08-10" none "approach_asc"
    (Or.inr (Or.inr (Or.inl ⟨_, _, rfl, rfl, by decide⟩)))

/-! ## Order facts about the date comparison and the policy re-sort. -/

theorem lexLe_total : ∀ as bs : List Char, lexLe as bs = true ∨ lexLe bs as = true
  | [], _ => Or.inl rfl
  | _ :: _, [] => Or.inr rfl
  | a :: as, b :: bs => by
    rcases lt_trichotomy a b with h | h | h
    · left
      simp [lexLe, h]
    · subst h
      rcases lexLe_total as bs with ih | ih
      · left
        simp [lexLe, lt_irrefl, ih]
      · right
        simp [lexLe, lt_irrefl, ih]
    · right
      simp [lexLe, h]

theorem lexLe_trans : ∀ as bs cs : List Char,
    lexLe as bs = true → lexLe bs cs = true → lexLe as cs = true
  | [], _, _ => fun _ _ => rfl
  | a :: as, [], cs => by
    intro h
    exact absurd h (by simp [lexLe])
  | _ :: _, _ :: _, [] => by
    intro _ h
    exact absurd h (by simp [lexLe])
  | a :: as, b :: bs, c :: cs => by
    intro hab hbc
    rcases lt_trichotomy a b with h1 | h1 | h1
    · rcases lt_trichotomy b c with h2 | h2 | h2
      · simp [lexLe, lt_trans h1 h2]
      · subst h2
        simp [lexLe, h1]
      · rcases lt_trichotomy a c with h3 | h3 | h3
        · simp [lexLe, h3]
        · subst h3
          simp only [lexLe, if_neg (lt_irrefl a), if_neg (lt_irrefl a)] at hbc ⊢
          exact absurd hbc (by simp [if_pos h1, if_neg (asymm h1)])
        · exfalso
          simp only [lexLe, if_neg (asymm h2), if_pos h2] at hbc
          exact absurd hbc (by simp)
    · subst h1
      rcases lt_trichotomy a c with h2 | h2 | h2
      · simp [lexLe, h2]
      · subst h2
        simp only [lexLe, if_neg (lt_irrefl a)] at hab hbc ⊢
        exact lexLe_trans as bs cs hab hbc
      · exfalso
        simp only [lexLe, if_neg (asymm h2), if_pos h2] at hbc
        exact absurd hbc (by simp)
    · exfalso
      simp only [lexLe, if_neg (asymm h1), if_pos h1] at hab
      exact absurd hab (by simp)

theorem strLe_total (a b : String) : strLe a b = true ∨ strLe b a = true :=
  lexLe_total a.data b.data

theorem strLe_trans (a b c : String) (hab : strLe a b = true) (hbc : strLe b c = true) :
    strLe a c = true :=
  lexLe_trans a.data b.data c.data hab hbc

theorem sorted_insertionSort_dateLe (m : List DayGroup) :
    List.Sorted (fun a b => strLe a.date b.date = true)
      (m.insertionSort (fun a b => strLe a.date b.date = true)) := by
  haveI : IsTotal DayGroup (fun a b => strLe a.date b.date = true) :=
    ⟨fun a b => strLe_total a.date b.date⟩
  haveI : IsTrans DayGroup (fun a b => strLe a.date b.date = true) :=
    ⟨fun a b c => strLe_trans a.date b.date c.date⟩
  exact List.sorted_insertionSort _ m

theorem resortGroup_eq_insertionSort (so : SortOrder) (l : List NEO) :
    resortGroup so l = l.insertionSort (fun a b => policyLe so a b = true) := by
  cases so <;>
    exact insertionSort_brel_congr (jsLe_jsKeyCmp _ _ _) l

theorem resortGroup_perm (so : SortOrder) (l : List NEO) : (resortGroup so l).Perm l := by
  rw [resortGroup_eq_insertionSort]
  exact List.perm_insertionSort _ l

theorem policyLe_total (so : SortOrder) (a b : NEO) :
    policyLe so a b = true ∨ policyLe so b a = true := by
  cases so <;> exact leGen_total _ _ _ a b

theorem policyLe_trans (so : SortOrder) (a b c : NEO)
    (hab : policyLe so a b = true) (hbc : policyLe so b c = true) :
    policyLe so a c = true := by
  cases so <;> exact leGen_trans _ _ _ a b c hab hbc

theorem resortGroup_sorted (so : SortOrder) (l : List NEO) :
    List.Sorted (fun a b => policyLe so a b = true) (resortGroup so l) := by
  rw [resortGroup_eq_insertionSort]
  haveI : IsTotal NEO (fun a b => policyLe so a b = true) := ⟨policyLe_total so⟩
  haveI : IsTrans NEO (fun a b => policyLe so a b = true) := ⟨policyLe_trans so⟩
  exact List.sorted_insertionSort _ l

theorem resortGroup_of_sorted (so : SortOrder) (l : List NEO)
    (h : List.Sorted (fun a b => policyLe so a b = true) l) : resortGroup so l = l := by
  rw [resortGroup_eq_insertionSort]
  exact h.insertionSort_eq

/-! ## Facts about the date-keyed map (`mapSet`, `buildMap`). -/

theorem any_date_iff (m : List DayGroup) (d : String) :
    m.any (fun x => x.date = d) = true ↔ d ∈ datesOf m := by
  rw [List.any_eq_true]
  constructor
  · rintro ⟨x, hx, hxd⟩
    exact List.mem_map.mpr ⟨x, hx, by simpa using hxd⟩
  · rintro h
    rcases List.mem_map.mp h with ⟨x, hx, hxd⟩
    exact ⟨x, hx, by simpa using hxd⟩

theorem mapSet_mem {m : List DayGroup} {g x : DayGroup} (h : x ∈ mapSet m g) :
    x ∈ m ∨ x = g := by
  unfold mapSet at h
  by_cases hc : m.any (fun y => y.date = g.date) = true
  · rw [if_pos hc] at h
    rcases List.mem_map.mp h with ⟨y, hy, hyx⟩
    by_cases hyd : y.date = g.date
    · right
      rw [← hyx, if_pos (by simpa using hyd)]
    · left
      rw [← hyx, if_neg (by simpa using hyd)]
      exact hy
  · rw [if_neg hc] at h
    rcases List.mem_append.mp h with h1 | h1
    · exact Or.inl h1
    · exact Or.inr (by simpa using h1)

theorem datesOf_mapSet (m : List DayGroup) (g : DayGroup) :
    datesOf (mapSet m g) =
      if g.date ∈ datesOf m then datesOf m else datesOf m ++ [g.date] := by
  unfold mapSet
  by_cases hc : m.any (fun y => y.date = g.date) = true
  · rw [if_pos hc, if_pos ((any_date_iff m g.date).mp hc)]
    unfold datesOf
    rw [List.map_map]
    refine List.map_congr_left ?_
    intro x _
    by_cases hxd : x.date = g.date
    · simp [hxd]
    · simp [hxd]
  · rw [if_neg hc, if_neg (fun hmem => hc ((any_date_iff m g.date).mpr hmem))]
    unfold datesOf
    simp

theorem foldl_mapSet_dates_nodup :
    ∀ (l : List DayGroup) (m : List DayGroup), (datesOf m).Nodup →
      (datesOf (l.foldl mapSet m)).Nodup
  | [], m => fun h => h
  | g :: t, m => fun h => by
    rw [List.foldl_cons]
    refine foldl_mapSet_dates_nodup t (mapSet m g) ?_
    rw [datesOf_mapSet]
    by_cases hc : g.date ∈ datesOf m
    · rw [if_pos hc]
      exact h
    · rw [if_neg hc]
      simp [List.nodup_append, h, hc]

theorem foldl_mapSet_dates_mem :
    ∀ (l : List DayGroup) (m : List DayGroup) (d : String),
      d ∈ datesOf (l.foldl mapSet m) ↔ d ∈ datesOf m ∨ d ∈ datesOf l
  | [], m, d => by simp [datesOf]
  | g :: t, m, d => by
    rw [List.foldl_cons, foldl_mapSet_dates_mem t (mapSet m g) d, datesOf_mapSet]
    by_cases hc : g.date ∈ datesOf m
    · rw [if_pos hc]
      constructor
      · rintro (h | h)
        · exact Or.inl h
        · exact Or.inr (by simp [datesOf, List.mem_map] at h ⊢; tauto)
      · rintro (h | h)
        · exact Or.inl h
        · rcases (by simpa [datesOf] using h :
            d = g.date ∨ d ∈ datesOf t) with h1 | h1
          · exact Or.inl (h1 ▸ hc)
          · exact Or.inr h1
    · rw [if_neg hc]
      constructor
      · rintro (h | h)
        · rcases List.mem_append.mp h with h1 | h1
          · exact Or.inl h1
          · refine Or.inr ?_
            simp only [datesOf, List.map_cons, List.mem_cons]
            exact Or.inl (by simpa using h1)
        · refine Or.inr ?_
          simp only [datesOf, List.map_cons, List.mem_cons]
          exact Or.inr h
      · rintro (h | h)
        · exact Or.inl (List.mem_append.mpr (Or.inl h))
        · rcases (by simpa [datesOf] using h :
            d = g.date ∨ d ∈ datesOf t) with h1 | h1
          · exact Or.inl (List.mem_append.mpr (Or.inr (by simp [h1])))
          · exact Or.inr h1

theorem foldl_mapSet_eq_append :
    ∀ (l : List DayGroup) (m : List DayGroup),
      (datesOf m ++ datesOf l).Nodup → l.foldl mapSet m = m ++ l
  | [], m => fun _ => by simp
  | g :: t, m => fun h => by
    have hgm : g.date ∉ datesOf m := by
      intro hmem
      have : (datesOf m ++ (g.date :: datesOf t)).Nodup := by
        simpa [datesOf] using h
      rcases List.nodup_append.mp this with ⟨_, _, hdisj⟩
      exact hdisj hmem (by simp)
    have hstep : mapSet m g = m ++ [g] := by
      unfold mapSet
      rw [if_neg (fun hc => hgm ((any_date_iff m g.date).mp hc))]
    rw [List.foldl_cons, hstep]
    have hper : (datesOf (m ++ [g]) ++ datesOf t).Nodup := by
      have heq : datesOf (m ++ [g]) ++ datesOf t =
          datesOf m ++ (g.date :: datesOf t) := by
        simp [datesOf, List.append_assoc]
      rw [heq]
      simpa [datesOf] using h
    rw [foldl_mapSet_eq_append t (m ++ [g]) hper]
    simp

theorem buildMap_eq_self (prev : List DayGroup) (h : (datesOf prev).Nodup) :
    buildMap prev = prev := by
  unfold buildMap
  rw [foldl_mapSet_eq_append prev [] (by simpa [datesOf] using h)]
  simp

theorem buildMap_dates_nodup (prev : List DayGroup) : (datesOf (buildMap prev)).Nodup :=
  foldl_mapSet_dates_nodup prev [] (by simp [datesOf])

theorem buildMap_dates_mem (prev : List DayGroup) (d : String) :
    d ∈ datesOf (buildMap prev) ↔ d ∈ datesOf prev := by
  unfold buildMap
  rw [foldl_mapSet_dates_mem prev [] d]
  simp [datesOf]

theorem buildMap_mem {prev : List DayGroup} {x : DayGroup} (h : x ∈ buildMap prev) :
    x ∈ prev := by
  unfold buildMap at h
  have : ∀ (l m : List DayGroup), x ∈ l.foldl mapSet m → x ∈ m ∨ x ∈ l := by
    intro l
    induction l with
    | nil => intro m hm; exact Or.inl hm
    | cons g t ih =>
      intro m hm
      rw [List.foldl_cons] at hm
      rcases ih (mapSet m g) hm with h1 | h1
      · rcases mapSet_mem h1 with h2 | h2
        · exact Or.inl h2
        · exact Or.inr (by simp [h2])
      · exact Or.inr (by simp [h1])
  rcases this prev [] h with h1 | h1
  · exact absurd h1 (List.not_mem_nil x)
  · exact h1

/-! ## Facts about one merge iteration (`mergeStep`). -/

theorem dates_nodup_unique {m : List DayGroup} (hn : (datesOf m).Nodup)
    {x y : DayGroup} (hx : x ∈ m) (hy : y ∈ m) (hd : x.date = y.date) : x = y :=
  List.inj_on_of_nodup_map hn hx hy hd

theorem find?_date_some {m : List DayGroup} {d : String} {eg : DayGroup}
    (hf : m.find? (fun x => x.date = d) = some eg) : eg ∈ m ∧ eg.date = d :=
  ⟨List.mem_of_find?_eq_some hf, by simpa using List.find?_some hf⟩

theorem find?_date_none {m : List DayGroup} {d : String}
    (hf : m.find? (fun x => x.date = d) = none) : d ∉ datesOf m := by
  intro hmem
  rcases List.mem_map.mp hmem with ⟨x, hx, hxd⟩
  have := List.find?_eq_none.mp hf x hx
  simp [hxd] at this

theorem find?_date_mem {m : List DayGroup} {d : String} (hmem : d ∈ datesOf m) :
    ∃ eg, m.find? (fun x => x.date = d) = some eg := by
  cases hf : m.find? (fun x => x.date = d) with
  | none => exact absurd hmem (find?_date_none hf)
  | some eg => exact ⟨eg, rfl⟩

theorem newOnesOf_ids_nodup {eg g : DayGroup} (hg : (g.neos.map NEO.id).Nodup) :
    ((newOnesOf eg g).map NEO.id).Nodup :=
  List.Nodup.sublist (List.Sublist.map NEO.id (List.filter_sublist g.neos)) hg

theorem newOnesOf_ids_disjoint {eg g : DayGroup} :
    ∀ i ∈ eg.neos.map NEO.id, i ∉ (newOnesOf eg g).map NEO.id := by
  intro i hi hcontra
  rcases List.mem_map.mp hcontra with ⟨n, hn, hni⟩
  have hfil := (List.mem_filter.mp hn).2
  rw [← hni] at hi
  simp [hi] at hfil

theorem mergedOf_ids_perm (resort : List NEO → List NEO)
    (hperm : ∀ l, (resort l).Perm l) (eg g : DayGroup) :
    ((mergedOf resort eg g).neos.map NEO.id).Perm
      (eg.neos.map NEO.id ++ (newOnesOf eg g).map NEO.id) := by
  unfold mergedOf
  simpa [List.map_append] using ((hperm (eg.neos ++ newOnesOf eg g)).map NEO.id)

theorem mergedOf_neos_perm (resort : List NEO → List NEO)
    (hperm : ∀ l, (resort l).Perm l) (eg g : DayGroup) :
    ((mergedOf resort eg g).neos).Perm (eg.neos ++ newOnesOf eg g) :=
  hperm _

theorem mergeStep_eq_found {resort : List NEO → List NEO} {m : List DayGroup}
    {g eg : DayGroup} (hf : m.find? (fun x => x.date = g.date) = some eg) :
    mergeStep resort m g =
      m.map (fun x => if x.date = g.date then mergedOf resort eg g else x) := by
  unfold mergeStep
  rw [hf]

theorem mergeStep_eq_new {resort : List NEO → List NEO} {m : List DayGroup}
    {g : DayGroup} (hf : m.find? (fun x => x.date = g.date) = none) :
    mergeStep resort m g = m ++ [g] := by
  unfold mergeStep
  rw [hf]

theorem mergeStep_dates (resort : List NEO → List NEO) (m : List DayGroup)
    (g : DayGroup) :
    datesOf (mergeStep resort m g) =
      if g.date ∈ datesOf m then datesOf m else datesOf m ++ [g.date] := by
  cases hf : m.find? (fun x => x.date = g.date) with
  | some eg =>
    rcases find?_date_some hf with ⟨hegm, hegd⟩
    rw [mergeStep_eq_found hf,
      if_pos (show g.date ∈ datesOf m from List.mem_map.mpr ⟨eg, hegm, hegd⟩)]
    unfold datesOf
    rw [List.map_map]
    refine List.map_congr_left ?_
    intro x _
    by_cases hxd : x.date = g.date
    · simp [hxd, mergedOf, hegd]
    · simp [hxd]
  | none =>
    rw [mergeStep_eq_new hf, if_neg (find?_date_none hf)]
    simp [datesOf]

theorem mergeStep_dates_nodup (resort : List NEO → List NEO) {m : List DayGroup}
    (g : DayGroup) (hn : (datesOf m).Nodup) :
    (datesOf (mergeStep resort m g)).Nodup := by
  rw [mergeStep_dates]
  by_cases hc : g.date ∈ datesOf m
  · rw [if_pos hc]
    exact hn
  · rw [if_neg hc]
    simp [List.nodup_append, hn, hc]

theorem mergeStep_mem {resort : List NEO → List NEO} {m : List DayGroup}
    {g x : DayGroup} (h : x ∈ mergeStep resort m g) :
    x ∈ m ∨ x = g ∨ ∃ eg ∈ m, x = mergedOf resort eg g := by
  cases hf : m.find? (fun y => y.date = g.date) with
  | some eg =>
    rw [mergeStep_eq_found hf] at h
    rcases List.mem_map.mp h with ⟨y, hy, hyx⟩
    by_cases hyd : y.date = g.date
    · exact Or.inr (Or.inr ⟨eg, (find?_date_some hf).1, by rw [← hyx, if_pos hyd]⟩)
    · exact Or.inl (by rw [← hyx, if_neg hyd]; exact hy)
  | none =>
    rw [mergeStep_eq_new hf] at h
    rcases List.mem_append.mp h with h1 | h1
    · exact Or.inl h1
    · exact Or.inr (Or.inl (by simpa using h1))

theorem mergeStep_hasId_mono (resort : List NEO → List NEO)
    (hperm : ∀ l, (resort l).Perm l) {m : List DayGroup} {g : DayGroup}
    (hn : (datesOf m).Nodup) {d i : String} (h : hasId m d i) :
    hasId (mergeStep resort m g) d i := by
  rcases h with ⟨x, hx, hxd, hxi⟩
  cases hf : m.find? (fun y => y.date = g.date) with
  | some eg =>
    rcases find?_date_some hf with ⟨hegm, hegd⟩
    rw [mergeStep_eq_found hf]
    by_cases hxg : x.date = g.date
    · have hxe : x = eg := dates_nodup_unique hn hx hegm (hxg.trans hegd.symm)
      refine ⟨mergedOf resort eg g, List.mem_map.mpr ⟨eg, hegm, by rw [if_pos hegd]⟩,
        ?_, ?_⟩
      · show (mergedOf resort eg g).date = d
        show eg.date = d
        rw [← hxe, hxd]
      · have hp := (mergedOf_ids_perm resort hperm eg g).mem_iff (a := i)
        refine hp.mpr (List.mem_append.mpr (Or.inl ?_))
        rw [← hxe]
        exact hxi
    · exact ⟨x, List.mem_map.mpr ⟨x, hx, by rw [if_neg hxg]⟩, hxd, hxi⟩
  | none =>
    rw [mergeStep_eq_new hf]
    exact ⟨x, List.mem_append.mpr (Or.inl hx), hxd, hxi⟩

theorem mergeStep_hasNeo_mono (resort : List NEO → List NEO)
    (hperm : ∀ l, (resort l).Perm l) {m : List DayGroup} {g : DayGroup}
    (hn : (datesOf m).Nodup) {d : String} {n : NEO} (h : hasNeo m d n) :
    hasNeo (mergeStep resort m g) d n := by
  rcases h with ⟨x, hx, hxd, hxn⟩
  cases hf : m.find? (fun y => y.date = g.date) with
  | some eg =>
    rcases find?_date_some hf with ⟨hegm, hegd⟩
    rw [mergeStep_eq_found hf]
    by_cases hxg : x.date = g.date
    · have hxe : x = eg := dates_nodup_unique hn hx hegm (hxg.trans hegd.symm)
      refine ⟨mergedOf resort eg g, List.mem_map.mpr ⟨eg, hegm, by rw [if_pos hegd]⟩,
        ?_, ?_⟩
      · show eg.date = d
        rw [← hxe, hxd]
      · have hp := (mergedOf_neos_perm resort hperm eg g).mem_iff (a := n)
        refine hp.mpr (List.mem_append.mpr (Or.inl ?_))
        rw [← hxe]
        exact hxn
    · exact ⟨x, List.mem_map.mpr ⟨x, hx, by rw [if_neg hxg]⟩, hxd, hxn⟩
  | none =>
    rw [mergeStep_eq_new hf]
    exact ⟨x, List.mem_append.mpr (Or.inl hx), hxd, hxn⟩

theorem mergeStep_hasId_new (resort : List NEO → List NEO)
    (hperm : ∀ l, (resort l).Perm l) (m : List DayGroup) (g : DayGroup) :
    ∀ n ∈ g.neos, hasId (mergeStep resort m g) g.date n.id := by
  intro n hn
  cases hf : m.find? (fun y => y.date = g.date) with
  | some eg =>
    rcases find?_date_some hf with ⟨hegm, hegd⟩
    rw [mergeStep_eq_found hf]
    refine ⟨mergedOf resort eg g, List.mem_map.mpr ⟨eg, hegm, by rw [if_pos hegd]⟩,
      hegd, ?_⟩
    have hp := (mergedOf_ids_perm resort hperm eg g).mem_iff (a := n.id)
    refine hp.mpr (List.mem_append.mpr ?_)
    by_cases hc : (eg.neos.map NEO.id).contains n.id = true
    · exact Or.inl (by simpa using hc)
    · refine Or.inr (List.mem_map.mpr ⟨n, ?_, rfl⟩)
      refine List.mem_filter.mpr ⟨hn, ?_⟩
      simp only [Bool.not_eq_eq_eq_not, Bool.not_true]
      simpa using hc
  | none =>
    rw [mergeStep_eq_new hf]
    exact ⟨g, List.mem_append.mpr (Or.inr (by simp)), rfl,
      List.mem_map.mpr ⟨n, hn, rfl⟩⟩

theorem mergeStep_sortedAt {rle : NEO → NEO → Prop} (resort : List NEO → List NEO)
    (hsort : ∀ l, List.Sorted rle (resort l)) {m : List DayGroup} {g : DayGroup}
    {d : String} (hg : List.Sorted rle g.neos)
    (hd : ∀ x ∈ m, x.date = d → List.Sorted rle x.neos) :
    ∀ x ∈ mergeStep resort m g, x.date = d → List.Sorted rle x.neos := by
  intro x hx hxd
  cases hf : m.find? (fun y => y.date = g.date) with
  | some eg =>
    rw [mergeStep_eq_found hf] at hx
    rcases List.mem_map.mp hx with ⟨y, hy, hyx⟩
    by_cases hyd : y.date = g.date
    · rw [← hyx, if_pos hyd]
      exact hsort _
    · rw [← hyx, if_neg hyd]
      refine hd y hy ?_
      rw [← hyx, if_neg hyd] at hxd
      exact hxd
  | none =>
    rw [mergeStep_eq_new hf] at hx
    rcases List.mem_append.mp hx with h1 | h1
    · exact hd x h1 hxd
    · rw [show x = g from by simpa using h1]
      exact hg

theorem mergeStep_sortedAt_new {rle : NEO → NEO → Prop} (resort : List NEO → List NEO)
    (hsort : ∀ l, List.Sorted rle (resort l)) {m : List DayGroup} {g : DayGroup}
    (hg : List.Sorted rle g.neos) :
    ∀ x ∈ mergeStep resort m g, x.date = g.date → List.Sorted rle x.neos := by
  intro x hx hxd
  cases hf : m.find? (fun y => y.date = g.date) with
  | some eg =>
    rw [mergeStep_eq_found hf] at hx
    rcases List.mem_map.mp hx with ⟨y, hy, hyx⟩
    by_cases hyd : y.date = g.date
    · rw [← hyx, if_pos hyd]
      exact hsort _
    · rw [← hyx, if_neg hyd] at hxd
      exact absurd hxd hyd
  | none =>
    rw [mergeStep_eq_new hf] at hx
    rcases List.mem_append.mp hx with h1 | h1
    · exact absurd (List.mem_map.mpr ⟨x, h1, hxd⟩) (find?_date_none hf)
    · rw [show x = g from by simpa using h1]
      exact hg

theorem mergeStep_idsNodup (resort : List NEO → List NEO)
    (hperm : ∀ l, (resort l).Perm l) {m : List DayGroup} {g : DayGroup}
    (hm : ∀ x ∈ m, (x.neos.map NEO.id).Nodup) (hg : (g.neos.map NEO.id).Nodup) :
    ∀ x ∈ mergeStep resort m g, (x.neos.map NEO.id).Nodup := by
  intro x hx
  rcases mergeStep_mem hx with h1 | h1 | ⟨eg, hegm, h1⟩
  · exact hm x h1
  · rw [h1]
    exact hg
  · rw [h1]
    refine ((mergedOf_ids_perm resort hperm eg g).nodup_iff).mpr ?_
    exact List.nodup_append.mpr
      ⟨hm eg hegm, newOnesOf_ids_nodup hg,
        fun i hi hni => (newOnesOf_ids_disjoint i hi) hni⟩

theorem mergeStep_countInv (resort : List NEO → List NEO)
    (hperm : ∀ l, (resort l).Perm l) {m : List DayGroup} {g : DayGroup}
    (hm : ∀ x ∈ m, countInv x) (hg : countInv g) :
    ∀ x ∈ mergeStep resort m g, countInv x := by
  intro x hx
  rcases mergeStep_mem hx with h1 | h1 | ⟨eg, hegm, h1⟩
  · exact hm x h1
  · rw [h1]
    exact hg
  · rw [h1]
    show (mergedOf resort eg g).count = (mergedOf resort eg g).neos.length
    have hlen : (mergedOf resort eg g).neos.length =
        eg.neos.length + (newOnesOf eg g).length := by
      rw [(mergedOf_neos_perm resort hperm eg g).length_eq, List.length_append]
    rw [hlen]
    show eg.count + (newOnesOf eg g).length = _
    rw [hm eg hegm]

/-! ## Facts about the whole merge loop (`foldl (mergeStep resort)`). -/

theorem fold_dates_nodup (resort : List NEO → List NEO) :
    ∀ (inc : List DayGroup) (m : List DayGroup), (datesOf m).Nodup →
      (datesOf (inc.foldl (mergeStep resort) m)).Nodup
  | [], _ => fun h => h
  | g :: t, m => fun h => by
    rw [List.foldl_cons]
    exact fold_dates_nodup resort t (mergeStep resort m g) (mergeStep_dates_nodup resort g h)

theorem fold_dates_mem (resort : List NEO → List NEO) :
    ∀ (inc : List DayGroup) (m : List DayGroup) (d : String),
      d ∈ datesOf (inc.foldl (mergeStep resort) m) ↔ d ∈ datesOf m ∨ d ∈ datesOf inc
  | [], m, d => by simp [datesOf]
  | g :: t, m, d => by
    rw [List.foldl_cons, fold_dates_mem resort t (mergeStep resort m g) d,
      mergeStep_dates]
    have hcons : d ∈ datesOf (g :: t) ↔ d = g.date ∨ d ∈ datesOf t := by
      simp [datesOf]
    by_cases hc : g.date ∈ datesOf m
    · rw [if_pos hc, hcons]
      constructor
      · rintro (h | h)
        · exact Or.inl h
        · exact Or.inr (Or.inr h)
      · rintro (h | h | h)
        · exact Or.inl h
        · exact Or.inl (h ▸ hc)
        · exact Or.inr h
    · rw [if_neg hc, hcons]
      constructor
      · rintro (h | h)
        · rcases List.mem_append.mp h with h1 | h1
          · exact Or.inl h1
          · exact Or.inr (Or.inl (by simpa using h1))
        · exact Or.inr (Or.inr h)
      · rintro (h | h | h)
        · exact Or.inl (List.mem_append.mpr (Or.inl h))
        · exact Or.inl (List.mem_append.mpr (Or.inr (by simp [h])))
        · exact Or.inr h

theorem fold_hasId_mono (resort : List NEO → List NEO)
    (hperm : ∀ l, (resort l).Perm l) :
    ∀ (inc : List DayGroup) (m : List DayGroup), (datesOf m).Nodup →
      ∀ d i, hasId m d i → hasId (inc.foldl (mergeStep resort) m) d i
  | [], _ => fun _ _ _ h => h
  | g :: t, m => fun hn d i h => by
    rw [List.foldl_cons]
    exact fold_hasId_mono resort hperm t (mergeStep resort m g)
      (mergeStep_dates_nodup resort g hn) d i (mergeStep_hasId_mono resort hperm hn h)

theorem fold_hasNeo_mono (resort : List NEO → List NEO)
    (hperm : ∀ l, (resort l).Perm l) :
    ∀ (inc : List DayGroup) (m : List DayGroup), (datesOf m).Nodup →
      ∀ d n, hasNeo m d n → hasNeo (inc.foldl (mergeStep resort) m) d n
  | [], _ => fun _ _ _ h => h
  | g :: t, m => fun hn d n h => by
    rw [List.foldl_cons]
    exact fold_hasNeo_mono resort hperm t (mergeStep resort m g)
      (mergeStep_dates_nodup resort g hn) d n (mergeStep_hasNeo_mono resort hperm hn h)

theorem fold_hasId_inc (resort : List NEO → List NEO)
    (hperm : ∀ l, (resort l).Perm l) :
    ∀ (inc : List DayGroup) (m : List DayGroup), (datesOf m).Nodup →
      ∀ g ∈ inc, ∀ n ∈ g.neos, hasId (inc.foldl (mergeStep resort) m) g.date n.id
  | [], _ => fun _ g hg => absurd hg (List.not_mem_nil g)
  | g :: t, m => fun hn g1 hg1 n hng => by
    rw [List.foldl_cons]
    rcases List.mem_cons.mp hg1 with h1 | h1
    · subst h1
      exact fold_hasId_mono resort hperm t (mergeStep resort m g1)
        (mergeStep_dates_nodup resort g1 hn) g1.date n.id
        (mergeStep_hasId_new resort hperm m g1 n hng)
    · exact fold_hasId_inc resort hperm t (mergeStep resort m g)
        (mergeStep_dates_nodup resort g hn) g1 h1 n hng

theorem fold_idsNodup (resort : List NEO → List NEO)
    (hperm : ∀ l, (resort l).Perm l) :
    ∀ (inc : List DayGroup) (m : List DayGroup),
      (∀ x ∈ m, (x.neos.map NEO.id).Nodup) →
      (∀ g ∈ inc, (g.neos.map NEO.id).Nodup) →
      ∀ x ∈ inc.foldl (mergeStep resort) m, (x.neos.map NEO.id).Nodup
  | [], _ => fun hm _ => hm
  | g :: t, m => fun hm hinc => by
    rw [List.foldl_cons]
    exact fold_idsNodup resort hperm t (mergeStep resort m g)
      (mergeStep_idsNodup resort hperm hm (hinc g (by simp)))
      (fun g1 hg1 => hinc g1 (by simp [hg1]))

theorem fold_countInv (resort : List NEO → List NEO)
    (hperm : ∀ l, (resort l).Perm l) :
    ∀ (inc : List DayGroup) (m : List DayGroup),
      (∀ x ∈ m, countInv x) → (∀ g ∈ inc, countInv g) →
      ∀ x ∈ inc.foldl (mergeStep resort) m, countInv x
  | [], _ => fun hm _ => hm
  | g :: t, m => fun hm hinc => by
    rw [List.foldl_cons]
    exact fold_countInv resort hperm t (mergeStep resort m g)
      (mergeStep_countInv resort hperm hm (hinc g (by simp)))
      (fun g1 hg1 => hinc g1 (by simp [hg1]))

theorem fold_sortedAt {rle : NEO → NEO → Prop} (resort : List NEO → List NEO)
    (hsort : ∀ l, List.Sorted rle (resort l)) :
    ∀ (inc : List DayGroup) (m : List DayGroup),
      (∀ g ∈ inc, List.Sorted rle g.neos) →
      ∀ d, (∀ x ∈ m, x.date = d → List.Sorted rle x.neos) →
      ∀ x ∈ inc.foldl (mergeStep resort) m, x.date = d → List.Sorted rle x.neos
  | [], _ => fun _ _ hd => hd
  | g :: t, m => fun hinc d hd => by
    rw [List.foldl_cons]
    exact fold_sortedAt resort hsort t (mergeStep resort m g)
      (fun g1 hg1 => hinc g1 (by simp [hg1])) d
      (mergeStep_sortedAt resort hsort (hinc g (by simp)) hd)

theorem fold_sortedAt_inc {rle : NEO → NEO → Prop} (resort : List NEO → List NEO)
    (hsort : ∀ l, List.Sorted rle (resort l)) :
    ∀ (inc : List DayGroup) (m : List DayGroup),
      (∀ g ∈ inc, List.Sorted rle g.neos) →
      ∀ g ∈ inc, ∀ x ∈ inc.foldl (mergeStep resort) m, x.date = g.date →
        List.Sorted rle x.neos
  | [], _ => fun _ g hg => absurd hg (List.not_mem_nil g)
  | g :: t, m => fun hinc g1 hg1 => by
    rw [List.foldl_cons]
    rcases List.mem_cons.mp hg1 with h1 | h1
    · subst h1
      exact fold_sortedAt resort hsort t (mergeStep resort m g1)
        (fun g2 hg2 => hinc g2 (by simp [hg2])) g1.date
        (mergeStep_sortedAt_new resort hsort (hinc g1 (by simp)))
    · exact fold_sortedAt_inc resort hsort t (mergeStep resort m g)
        (fun g2 hg2 => hinc g2 (by simp [hg2])) g1 h1

theorem fold_const {α β : Type} (step : α → β → α) :
    ∀ (l : List β) (m : α), (∀ b ∈ l, step m b = m) → l.foldl step m = m
  | [], _ => fun _ => rfl
  | b :: t, m => fun h => by
    rw [List.foldl_cons, h b (by simp)]
    exact fold_const step t m (fun b1 hb1 => h b1 (by simp [hb1]))

/-! ## Transfer through the final by-date sort of the merge. -/

theorem loadMoreMerge_perm_fold (so : SortOrder) (prev inc : List DayGroup) :
    (loadMoreMerge so prev inc).Perm
      (inc.foldl (mergeStep (resortGroup so)) (buildMap prev)) :=
  List.perm_insertionSort _ _

theorem sortInGroup_nil (so : SortOrder) : sortInGroup so [] = [] := by
  cases so <;> rfl

/-! ## Claim C8: date ordering and date uniqueness. -/

/-- C8: the aggregator output is sorted by date ascending under the
lexicographic comparison of the date strings; and every merge result is
sorted by date ascending, has pairwise-distinct dates, and carries exactly
the union of the held and incoming date keys. -/
theorem claim_C8_date_ordering :
    (∀ (entries : List (String × List RawNeo)) (hazardousOnly : Bool) (so : SortOrder),
      List.Sorted (fun a b => strLe a.date b.date = true)
        (normalizeNeoData entries hazardousOnly so)) ∧
    (∀ (so : SortOrder) (prev inc : List DayGroup),
      List.Sorted (fun a b => strLe a.date b.date = true) (loadMoreMerge so prev inc) ∧
      (datesOf (loadMoreMerge so prev inc)).Nodup ∧
      (∀ d, d ∈ datesOf (loadMoreMerge so prev inc) ↔
        d ∈ datesOf prev ∨ d ∈ datesOf inc)) := by
  constructor
  · intro entries hazardousOnly so
    unfold normalizeNeoData
    exact sorted_insertionSort_dateLe _
  · intro so prev inc
    refine ⟨?_, ?_, ?_⟩
    · unfold loadMoreMerge mergeFeed
      exact sorted_insertionSort_dateLe _
    · have hp := (loadMoreMerge_perm_fold so prev inc).map DayGroup.date
      refine hp.nodup_iff.mpr ?_
      exact fold_dates_nodup _ inc (buildMap prev) (buildMap_dates_nodup prev)
    · intro d
      have hp := (loadMoreMerge_perm_fold so prev inc).map DayGroup.date
      have hiff : d ∈ datesOf (loadMoreMerge so prev inc) ↔
          d ∈ datesOf (inc.foldl (mergeStep (resortGroup so)) (buildMap prev)) :=
        hp.mem_iff
      rw [hiff, fold_dates_mem _ inc (buildMap prev) d, buildMap_dates_mem prev d]

/-! ## Claim C7: the count invariant. -/

/-- C7: every group the aggregator produces satisfies
`count = neos.length`, and the merge preserves the invariant: if every held
and every incoming group satisfies it, every group of the merge result
does. -/
theorem claim_C7_count_inv :
    (∀ (entries : List (String × List RawNeo)) (hazardousOnly : Bool) (so : SortOrder),
      ∀ g ∈ normalizeNeoData entries hazardousOnly so, countInv g) ∧
    (∀ (so : SortOrder) (prev inc : List DayGroup),
      (∀ g ∈ prev, countInv g) → (∀ g ∈ inc, countInv g) →
      ∀ g ∈ loadMoreMerge so prev inc, countInv g) := by
  constructor
  · intro entries hazardousOnly so g hg
    unfold normalizeNeoData at hg
    rw [List.mem_insertionSort] at hg
    rcases List.mem_map.mp hg with ⟨e, _, hge⟩
    rw [← hge]
    rfl
  · intro so prev inc hp hi g hg
    rw [(loadMoreMerge_perm_fold so prev inc).mem_iff] at hg
    exact fold_countInv (resortGroup so) (resortGroup_perm so) inc (buildMap prev)
      (fun x hx => hp x (buildMap_mem hx)) hi g hg

/-- C7, witness: the invariant at a concrete group of a concrete merge
result. -/
theorem claim_C7_witness :
    countInv
      { date := "2025-08-14", count := 2,
        neos := [neoLit "b" (JsOpt.val 10) none, neoLit "a" (JsOpt.val 50) none] } :=
  claim_C7_count_inv.2 SortOrder.approach_asc prevWitness incWitness
    (by simp only [countInv]; decide) (by simp only [countInv]; decide) _ (by decide)

/-! ## Claim C10: fully filtered dates are retained. -/

/-- C10: with the hazardous-only flag set, the aggregator still produces
one group per payload date key (the output dates are a permutation of the
payload keys), and a date all of whose records are non-hazardous yields a
group with `count = 0` and an empty object list. -/
theorem claim_C10_empty_groups (entries : List (String × List RawNeo)) (so : SortOrder) :
    ((normalizeNeoData entries true so).map DayGroup.date).Perm (entries.map Prod.fst) ∧
    (∀ d neos, (d, neos) ∈ entries →
      (∀ n ∈ neos, n.is_potentially_hazardous_asteroid = false) →
      ∃ g ∈ normalizeNeoData entries true so, g.date = d ∧ g.count = 0 ∧ g.neos = []) := by
  constructor
  · unfold normalizeNeoData
    refine ((List.perm_insertionSort _ _).map _).trans ?_
    rw [List.map_map]
    have heq : entries.map
        ((fun g : DayGroup => g.date) ∘ (fun e : String × List RawNeo =>
          ({ date := e.1,
             count := (sortInGroup so ((e.2.filter (fun neo =>
               !true || neo.is_potentially_hazardous_asteroid)).map normalizeNeo)).length,
             neos := sortInGroup so ((e.2.filter (fun neo =>
               !true || neo.is_potentially_hazardous_asteroid)).map normalizeNeo) } :
            DayGroup))) = entries.map Prod.fst :=
      List.map_congr_left (fun e _ => rfl)
    rw [heq]
  · intro d neos hmem hall
    have hfil : neos.filter
        (fun neo => neo.is_potentially_hazardous_asteroid) = [] := by
      rw [List.filter_eq_nil_iff]
      intro a ha
      simp [hall a ha]
    refine ⟨{ date := d, count := 0, neos := [] }, ?_, rfl, rfl, rfl⟩
    unfold normalizeNeoData
    rw [List.mem_insertionSort]
    refine List.mem_map.mpr ⟨(d, neos), hmem, ?_⟩
    simp [hfil, sortInGroup_nil]

/-- C10, witness: a date all of whose objects are non-hazardous is kept as
an empty group in a concrete aggregation. -/
theorem claim_C10_witness :
    ∃ g ∈ normalizeNeoData entriesNonHazardous true SortOrder.approach_asc,
      g.date = "2025-08-15" ∧ g.count = 0 ∧ g.neos = [] :=
  (claim_C10_empty_groups entriesNonHazardous SortOrder.approach_asc).2 "2025-08-15"
    [rawNeoWithDiameter "nh" JsOpt.undef JsOpt.undef] (by decide) (by decide)

/-! ## Claim C1: merge idempotence, dedup and preservation. -/

theorem hasId_of_perm {m1 m2 : List DayGroup} {d i : String}
    (hp : m1.Perm m2) (h : hasId m2 d i) : hasId m1 d i := by
  rcases h with ⟨x, hx, hxd, hxi⟩
  exact ⟨x, hp.mem_iff.mpr hx, hxd, hxi⟩

theorem hasNeo_of_perm {m1 m2 : List DayGroup} {d : String} {n : NEO}
    (hp : m1.Perm m2) (h : hasNeo m2 d n) : hasNeo m1 d n := by
  rcases h with ⟨x, hx, hxd, hxn⟩
  exact ⟨x, hp.mem_iff.mpr hx, hxd, hxn⟩

/-- C1, counterexample to the claim as stated: with an empty held
collection and one incoming group whose objects are not in epoch order,
merging once inserts the group as-is, while the second merge re-sorts it,
so merging twice differs from merging once. -/
theorem claim_C1_counterexample :
    loadMoreMerge SortOrder.approach_asc
        (loadMoreMerge SortOrder.approach_asc [] [incUnsorted]) [incUnsorted] ≠
      loadMoreMerge SortOrder.approach_asc [] [incUnsorted] := by
  decide

/-- C1, amended: whenever the held groups have pairwise-distinct dates and
duplicate-free object ids, and each incoming group has duplicate-free
object ids and an object list already sorted by the active policy's
comparator, then merging the incoming list twice produces the same result
as merging it once; within every date group of the merged result no two
objects share an id; and every object present in the held collection is
still present under its date after the merge. -/
theorem claim_C1_merge_idempotent (so : SortOrder) (prev inc : List DayGroup)
    (hpd : (datesOf prev).Nodup)
    (hpids : ∀ g ∈ prev, (g.neos.map NEO.id).Nodup)
    (hiids : ∀ g ∈ inc, (g.neos.map NEO.id).Nodup)
    (hisort : ∀ g ∈ inc,
      List.Sorted (fun a b => policyLe so a b = true) g.neos) :
    loadMoreMerge so (loadMoreMerge so prev inc) inc = loadMoreMerge so prev inc ∧
    (∀ g ∈ loadMoreMerge so prev inc, (g.neos.map NEO.id).Nodup) ∧
    (∀ g ∈ prev, ∀ n ∈ g.neos, hasNeo (loadMoreMerge so prev inc) g.date n) := by
  have hresperm := resortGroup_perm so
  have hressort := resortGroup_sorted so
  have hbnodup := buildMap_dates_nodup prev
  have hRperm := loadMoreMerge_perm_fold so prev inc
  have hFnodup : (datesOf
      (inc.foldl (mergeStep (resortGroup so)) (buildMap prev))).Nodup :=
    fold_dates_nodup _ inc (buildMap prev) hbnodup
  have hRnodup : (datesOf (loadMoreMerge so prev inc)).Nodup :=
    (hRperm.map DayGroup.date).nodup_iff.mpr hFnodup
  have hRsorted : List.Sorted (fun a b => strLe a.date b.date = true)
      (loadMoreMerge so prev inc) := by
    unfold loadMoreMerge mergeFeed
    exact sorted_insertionSort_dateLe _
  have hRsortedAt : ∀ g ∈ inc, ∀ x ∈ loadMoreMerge so prev inc,
      x.date = g.date → List.Sorted (fun a b => policyLe so a b = true) x.neos := by
    intro g hg x hx hxd
    exact fold_sortedAt_inc (resortGroup so) (fun l => hressort l) inc (buildMap prev)
      hisort g hg x (hRperm.mem_iff.mp hx) hxd
  have hRhasId : ∀ g ∈ inc, ∀ n ∈ g.neos,
      hasId (loadMoreMerge so prev inc) g.date n.id := by
    intro g hg n hn
    exact hasId_of_perm hRperm
      (fold_hasId_inc (resortGroup so) hresperm inc (buildMap prev) hbnodup g hg n hn)
  have hRdates : ∀ g ∈ inc, g.date ∈ datesOf (loadMoreMerge so prev inc) := by
    intro g hg
    refine ((hRperm.map DayGroup.date).mem_iff).mpr ?_
    refine (fold_dates_mem _ inc (buildMap prev) g.date).mpr ?_
    exact Or.inr (List.mem_map.mpr ⟨g, hg, rfl⟩)
  refine ⟨?_, ?_, ?_⟩
  · have hstep : ∀ g ∈ inc,
        mergeStep (resortGroup so) (loadMoreMerge so prev inc) g =
          loadMoreMerge so prev inc := by
      intro g hg
      rcases find?_date_mem (hRdates g hg) with ⟨eg, hf⟩
      rcases find?_date_some hf with ⟨hegm, hegd⟩
      have hnew : newOnesOf eg g = [] := by
        unfold newOnesOf
        rw [List.filter_eq_nil_iff]
        intro n hn
        rcases hRhasId g hg n hn with ⟨x, hx, hxd, hxi⟩
        have hxe : x = eg := dates_nodup_unique hRnodup hx hegm (hxd.trans hegd.symm)
        rw [hxe] at hxi
        simp [hxi]
      have hsorted_eg : List.Sorted (fun a b => policyLe so a b = true) eg.neos :=
        hRsortedAt g hg eg hegm hegd
      have hmerged : mergedOf (resortGroup so) eg g = eg := by
        unfold mergedOf
        rw [hnew]
        rw [List.append_nil, resortGroup_of_sorted so _ hsorted_eg]
        rfl
      rw [mergeStep_eq_found hf, hmerged]
      have hcongr : ∀ x ∈ loadMoreMerge so prev inc,
          (if x.date = g.date then eg else x) = x := by
        intro x hx
        by_cases hxd : x.date = g.date
        · rw [if_pos hxd,
            dates_nodup_unique hRnodup hegm hx (hegd.trans hxd.symm)]
        · rw [if_neg hxd]
      rw [List.map_congr_left hcongr]
      exact List.map_id _
    show mergeFeed (resortGroup so) (loadMoreMerge so prev inc) inc = _
    unfold mergeFeed
    rw [buildMap_eq_self _ hRnodup, fold_const _ inc _ hstep]
    exact hRsorted.insertionSort_eq
  · intro g hg
    exact fold_idsNodup (resortGroup so) hresperm inc (buildMap prev)
      (fun x hx => hpids x (buildMap_mem hx)) hiids g (hRperm.mem_iff.mp hg)
  · intro g hg n hn
    refine hasNeo_of_perm hRperm ?_
    refine fold_hasNeo_mono (resortGroup so) hresperm inc (buildMap prev)
      hbnodup g.date n ?_
    rw [buildMap_eq_self prev hpd]
    exact ⟨g, hg, rfl, hn⟩

/-- C1, witness: the amended statement at a concrete held collection and a
concrete sorted, duplicate-free incoming list. -/
theorem claim_C1_witness :
    loadMoreMerge SortOrder.approach_asc
        (loadMoreMerge SortOrder.approach_asc prevWitness incWitness) incWitness =
      loadMoreMerge SortOrder.approach_asc prevWitness incWitness :=
  (claim_C1_merge_idempotent SortOrder.approach_asc prevWitness incWitness
    (by decide) (by decide) (by decide) (by decide)).1

/-! ## Claim C5: the legacy merge does not re-sort under the size policies. -/

/-- C5, evaluation of the legacy `loadMore` (`src/hooks/useNeoFeed.ts`) at
the failing input: merging one object of diameter 3 into a held group
holding diameters 2 then 1 under the active `size_asc` policy leaves the
extended list in pushed order `[2, 1, 3]` — not re-sorted by the active
policy as the spec requires (`2 ≤ 1` fails) — because the legacy merge
re-sorts only under the approach policies. -/
theorem claim_C5_legacy_no_size_resort :
    (loadMoreMergeLegacy SortOrder.size_asc [heldSizeGroup] [incSizeGroup]).map
        (fun g => g.neos.map NEO.avgDiameterKm) = [[some 2, some 1, some 3]] ∧
    ¬ ((2 : ℚ) ≤ 1) := by
  decide

end CosmicEvent
